import Mathlib

/-!
# Verification of the eidaws federator request-processing core

A shallow embedding, in Lean 4, of the request-federation engine of the
`eidaws` repository (packages `eidaws.federator` and `eidaws.utils`):

* `BaseRequestProcessor._emerge_routes`, `_route`, `federate`, `finalize`,
  `_join_with_exception_handling`, `make_stream_response` and
  `_gc_response_code_stats` from
  `eidaws.federator/eidaws/federator/utils/process.py`;
* `AvailabilityAsyncWorker._fetch` / `run` and
  `AvailabilityRequestProcessor._dispatch` from
  `eidaws.federator/eidaws/federator/fdsnws_availability/process.py`.

Pure control flow is translated directly from the Python source.  Leaves of
the computation whose defining modules are not part of the provided source
slice (`eidaws.utils.sncl`, the retry-budget mixin backed by a remote store,
the format-specific serializers) are modelled as explicit function
parameters or as small definitions whose doc comments say what they stand
for.  Machine-level effects (awaiting, logging) are erased; exceptions are
modelled with `Except`/`Option`.
-/

/-- Decidable equality for `Except`, needed to evaluate concrete runs of the
embedded functions. -/
instance exceptDecEq {ε : Type u} {α : Type v} [DecidableEq ε] [DecidableEq α] :
    DecidableEq (Except ε α)
  | .error a, .error b =>
    if h : a = b then .isTrue (by rw [h]) else .isFalse (by intro hc; cases hc; exact h rfl)
  | .error _, .ok _ => .isFalse (by intro hc; cases hc)
  | .ok _, .error _ => .isFalse (by intro hc; cases hc)
  | .ok a, .ok b =>
    if h : a = b then .isTrue (by rw [h]) else .isFalse (by intro hc; cases hc; exact h rfl)

/-! ## Data model

`eidaws.utils.sncl` is not part of the source slice, so the stream-epoch
data type is modelled from the spec (§3): a stream identity (network,
station, location, channel codes), a start time and an optional end time
(absent = "open").  Times are integers (microseconds); the duration of an
epoch, a `datetime.timedelta` computed by the missing `sncl.py`, is passed
to the route resolver as an explicit function `dur : StreamEpoch → Int`. -/

/-- Modelled from the spec: the stream identity part of an SNCL tuple
(`eidaws.utils.sncl.Stream`, not in the source slice). -/
structure SnclStream where
  network : String
  station : String
  location : String
  channel : String
deriving DecidableEq, Repr, Inhabited

/-- Modelled from the spec: a stream epoch
(`eidaws.utils.sncl.StreamEpoch`, not in the source slice).  `endtime =
none` is an open end. -/
structure StreamEpoch where
  stream : SnclStream
  starttime : Int
  endtime : Option Int
deriving DecidableEq, Repr

/-- `eidaws.utils.misc.Route` (a named tuple `url`, `stream_epochs`; the
module is not in the source slice, the shape is taken from its uses in
`process.py`). -/
structure Route where
  url : String
  streamEpochs : List StreamEpoch
deriving DecidableEq, Repr

/-! ## `_join_with_exception_handling` (process.py lines 336-360)

The coroutine waits on `queue.join()` under `streaming_timeout` and decides
which FDSN error, if any, to raise.  The two facts it branches on — whether
`asyncio.wait_for` timed out and whether the `StreamResponse` was prepared —
are the inputs of the embedded function; the output is the status of the
`FDSNHTTPError` raised, if any. -/

/-- `BaseRequestProcessor._join_with_exception_handling`: returns
`some status` when the coroutine raises `FDSNHTTPError.create(status, ...)`
and `none` when it returns normally. -/
def joinWithExceptionHandling (timedOut prepared : Bool) (nodata : Nat) : Option Nat :=
  if timedOut then
    if !prepared then some 413
    else if !prepared then some nodata else none
  else if !prepared then some nodata else none

/-! ## `finalize` and the `_await_on_close` list (process.py lines 39-93,
109-120, 328-334)

`finalize` awaits the entries of `self._await_on_close` in list order.
`__init__` initializes the list to `[_gc_response_code_stats,
_teardown_tasks]`; the `cached` decorator wrapping `federate` executes
`self._await_on_close.insert(0, functools.partial(self.set_cache, key))`
on every cache miss.  The embedding records the close actions symbolically. -/

/-- The coroutines that can appear in `_await_on_close`. -/
inductive CloseAction where
  /-- `functools.partial(self.set_cache, cache_key)`: flush the cache
  accumulator to the Cache under the request key. -/
  | setCache
  /-- `self._gc_response_code_stats`: GC the RetryBudget for every routed
  URL. -/
  | gcResponseCodeStats
  /-- `self._teardown_tasks`: cancel still-pending worker tasks. -/
  | teardownTasks
deriving DecidableEq, Repr, BEq

/-- `self._await_on_close` as initialized by
`BaseRequestProcessor.__init__`. -/
def initAwaitOnClose : List CloseAction :=
  [CloseAction.gcResponseCodeStats, CloseAction.teardownTasks]

/-- The `cached` decorator's `self._await_on_close.insert(0,
functools.partial(self.set_cache, cache_key))`. -/
def insertSetCache (l : List CloseAction) : List CloseAction :=
  CloseAction.setCache :: l

/-- The order in which `BaseRequestProcessor.finalize` awaits the close
coroutines on the cache-miss path (the only path that reaches
`finalize`). -/
def finalizeActions : List CloseAction := insertSetCache initAwaitOnClose

/-! ## `AvailabilityAsyncWorker._fetch` (fdsnws_availability/process.py
lines 64-110)

The endpoint interaction is abstracted to its outcome: either the request
raised `aiohttp.ClientError` / `asyncio.TimeoutError`, or a response with
some HTTP status was received.  The embedding records which statuses the
worker feeds to the retry budget (`update_cretry_budget`, a mixin method
not in the source slice that appends an observation for the endpoint URL)
and whether the worker hands the response back for parsing (`_fetch`
returning `(route, resp)` rather than `(route, None)`).

`BaseAsyncWorker._handle_error` and `_handle_413` live in the missing
`utils/worker.py`; modelled from the spec ("Other 4xx/5xx → log and finish
silently"): they log and do not touch the retry budget. -/

/-- Outcome of the `aiohttp` request issued by `_fetch`. -/
inductive FetchOutcome where
  /-- the request raised `aiohttp.ClientError` or `asyncio.TimeoutError` -/
  | transportError
  /-- a response with the given HTTP status was received -/
  | response (status : Nat)
deriving DecidableEq, Repr

/-- What a single `_fetch` call did: the statuses recorded in the
RetryBudget for the endpoint URL, in order, and whether the response was
returned for parsing (i.e. data may be emitted from it). -/
structure FetchResult where
  budgetRecords : List Nat
  emitsResponse : Bool
deriving DecidableEq, Repr

/-- `AvailabilityAsyncWorker._fetch`.  `raise_for_status` raises
`aiohttp.ClientResponseError` exactly when `status ≥ 400`. -/
def availabilityFetch (o : FetchOutcome) : FetchResult :=
  match o with
  | .transportError => { budgetRecords := [503], emitsResponse := false }
  | .response status =>
    if status ≥ 400 then
      -- `except aiohttp.ClientResponseError:` → `_handle_413` / `_handle_error`,
      -- then `return route, None`
      { budgetRecords := [], emitsResponse := false }
    else if status ≠ 200 then
      -- no-content codes are logged, others go to `_handle_error`;
      -- `return route, None` either way
      { budgetRecords := [], emitsResponse := false }
    else
      { budgetRecords := [status], emitsResponse := true }

/-! ## `make_stream_response` (process.py lines 293-312)

The factory wraps `response.write`: a `ConnectionResetError` from the
underlying wire write is swallowed, and `dump_to_cache_buffer` runs in the
`else` arm of the `try`, i.e. only when the wire write succeeded.  Other
exceptions propagate.  The embedding processes a list of fragments, each
tagged with the outcome of its wire write. -/

/-- Outcome of one underlying `response.write` call. -/
inductive WireResult where
  | ok
  | connectionReset
  /-- any exception other than `ConnectionResetError` -/
  | otherError
deriving DecidableEq, Repr

/-- One call of the wrapped `write` from `make_stream_response`: `.ok b`
means the call returned, with `b = true` iff the fragment was dumped to the
cache buffer; `.error ()` means the exception propagated to the caller. -/
def wrappedWrite (r : WireResult) : Except Unit Bool :=
  match r with
  | .ok => .ok true
  | .connectionReset => .ok false
  | .otherError => .error ()

/-- Writing a sequence of fragments through the wrapped `write`: returns
the fragments dumped to the cache buffer, in order, or the first
propagating exception. -/
def writeAll : List (String × WireResult) → Except Unit (List String)
  | [] => .ok []
  | (frag, r) :: rest =>
    match wrappedWrite r with
    | .error e => .error e
    | .ok dumped =>
      match writeAll rest with
      | .error e => .error e
      | .ok l => .ok (if dumped then frag :: l else l)

/-! ## `_emerge_routes` (process.py lines 390-469)

`_emerge_routes` scans `text.split("\n")` with a two-state machine: while
`url` is falsy (Python: `None` or the empty string) a line is a URL line;
otherwise a line stripping to the empty string terminates the current block
(the URL is added to the returned set and the state is reset), and any
other line is an SNCL row of the current block.  Rows of a URL whose retry
budget error ratio was read successfully and exceeds the threshold are
skipped; rows of other URLs are parsed into stream epochs, their durations
are accumulated and validated, and a demultiplexed `Route` is appended.

Leaves modelled as parameters:
* `budget` stands for `await self.get_cretry_budget_error_ratio(url)`
  (`ClientRetryBudgetMixin`, not in the source slice): `.ok r` is a
  successfully read error ratio, `.error ()` is any raised exception.
* `parse` stands for `StreamEpoch.from_snclline(line, default_endtime=...)`
  (`eidaws.utils.sncl`, not in the source slice), with the POST/GET default
  endtime already applied; `none` is a parse failure (an exception that
  propagates out of `_emerge_routes`).
* `dur` stands for the `se.duration` property of the missing `sncl.py`. -/

/-- Python's whitespace test for `str.strip()` (ASCII whitespace; the
routing wire format uses only spaces, tabs and CR/LF). -/
def isPySpace (c : Char) : Bool :=
  c == ' ' || c == '\t' || c == '\n' || c == '\r' ||
  c == Char.ofNat 11 || c == Char.ofNat 12

/-- Python's `line.strip()`: drop leading and trailing whitespace.  (Defined
on the character list so that concrete runs reduce inside the kernel.) -/
def pyStrip (s : String) : String :=
  ⟨List.reverse (List.dropWhile isPySpace (List.reverse (List.dropWhile isPySpace s.data)))⟩

/-- `datetime.timedelta.max` in microseconds:
`timedelta(days=999999999, hours=23, minutes=59, seconds=59,
microseconds=999999)`. -/
def timedeltaMax : Int := 999999999 * 86400000000 + 86399999999

/-- `total_stream_duration += stream_duration` with the `except
OverflowError: total_stream_duration = datetime.timedelta.max` handler
(durations here are nonnegative, so only the upper bound can overflow). -/
def addTimedelta (a b : Int) : Int :=
  if a + b > timedeltaMax then timedeltaMax else a + b

/-- The configuration read by `_emerge_routes`.  The two duration maxima
are the `datetime.timedelta` values of the `max_stream_epoch_duration` /
`max_total_stream_epoch_duration` properties (`none` when the config option
is unset and `_duration_to_timedelta` returns `None`); the threshold is the
`client_retry_budget_threshold` percentage. -/
structure EmergeConfig where
  maxStreamEpochDuration : Option Int
  maxTotalStreamEpochDuration : Option Int
  clientRetryBudgetThreshold : Rat
deriving DecidableEq, Repr

/-- The `validate_stream_durations` closure of `_emerge_routes` (process.py
lines 399-413): `true` iff it raises `FDSNHTTPError.create(413, ...)`. -/
def validateStreamDurations (cfg : EmergeConfig) (streamDuration totalStreamDuration : Int) :
    Bool :=
  (match cfg.maxStreamEpochDuration with
   | some m => decide (streamDuration > m)
   | none => false) ||
  (match cfg.maxTotalStreamEpochDuration with
   | some m => decide (totalStreamDuration > m)
   | none => false)

/-- Exceptions leaving `_emerge_routes`. -/
inductive EmergeError where
  /-- `FDSNHTTPError.create(413, ...)` from `validate_stream_durations` -/
  | requestTooLarge
  /-- an exception from `StreamEpoch.from_snclline` -/
  | snclParseFailure
deriving DecidableEq, Repr

/-- The loop state of `_emerge_routes`. -/
structure EmergeState where
  url : Option String
  skipUrl : Bool
  urls : Finset String
  routes : List Route
  totalStreamDuration : Int
deriving DecidableEq

/-- The state before the first line: `url = None`, `skip_url = False`,
`urls = set([])`, `routes = []`, `total_stream_duration = timedelta()`. -/
def initialEmergeState : EmergeState :=
  { url := none, skipUrl := false, urls := ∅, routes := [], totalStreamDuration := 0 }

/-- Python truthiness of the `url` variable: falsy when `None` or the empty
string. -/
def pyFalsy : Option String → Bool
  | none => true
  | some s => s == ""

/-- The `try/except/else` around `get_cretry_budget_error_ratio` on a URL
line: on an exception `skip_url` is left unchanged (`pass`); on a
successfully read ratio strictly above the threshold it is set to
`True`. -/
def skipDecision (budget : String → Except Unit Rat) (threshold : Rat) (url : String)
    (skipUrl : Bool) : Bool :=
  match budget url with
  | .error _ => skipUrl
  | .ok r => if r > threshold then true else skipUrl

/-- One iteration of the `for line in text.split("\n")` loop of
`_emerge_routes`. -/
def emergeStep (cfg : EmergeConfig) (budget : String → Except Unit Rat)
    (parse : String → Option StreamEpoch) (dur : StreamEpoch → Int)
    (st : EmergeState) (line : String) : Except EmergeError EmergeState :=
  if pyFalsy st.url then
    let u := pyStrip line
    .ok { st with url := some u,
                  skipUrl := skipDecision budget cfg.clientRetryBudgetThreshold u st.skipUrl }
  else if pyStrip line = "" then
    .ok { st with urls := insert (st.url.getD "") st.urls, url := none, skipUrl := false }
  else if st.skipUrl then
    .ok st
  else
    match parse line with
    | none => .error .snclParseFailure
    | some se =>
      let total := addTimedelta st.totalStreamDuration (dur se)
      if validateStreamDurations cfg (dur se) total then
        .error .requestTooLarge
      else
        .ok { st with routes := st.routes ++ [{ url := st.url.getD "", streamEpochs := [se] }],
                      totalStreamDuration := total }

/-- The whole loop of `_emerge_routes`, starting from an arbitrary state. -/
def emergeGo (cfg : EmergeConfig) (budget : String → Except Unit Rat)
    (parse : String → Option StreamEpoch) (dur : StreamEpoch → Int) :
    EmergeState → List String → Except EmergeError EmergeState
  | st, [] => .ok st
  | st, l :: ls =>
    match emergeStep cfg budget parse dur st l with
    | .error e => .error e
    | .ok st' => emergeGo cfg budget parse dur st' ls

/-- `BaseRequestProcessor._emerge_routes` on the routing response body
already split at `"\n"`: returns the `(urls, routes)` pair or the raised
exception. -/
def emergeRoutes (cfg : EmergeConfig) (budget : String → Except Unit Rat)
    (parse : String → Option StreamEpoch) (dur : StreamEpoch → Int)
    (lines : List String) : Except EmergeError (Finset String × List Route) :=
  match emergeGo cfg budget parse dur initialEmergeState lines with
  | .error e => .error e
  | .ok st => .ok (st.urls, st.routes)

/-! ### Routing wire format blocks

The claims about `_emerge_routes` quantify over routing responses of the
wire format of spec §6: blocks of a URL line followed by SNCL rows,
terminated by a blank line.  A block is rendered into the line list the
parser sees. -/

/-- Render one `(url, rows)` block of the routing wire format. -/
def renderBlock (b : String × List String) : List String :=
  b.1 :: (b.2 ++ [""])

/-- Render a routing response made of the given blocks (the trailing blank
line of the last block is the final newline of the response body). -/
def renderBlocks (bs : List (String × List String)) : List String :=
  bs.flatMap renderBlock

/-- A well-formed wire-format block: the URL line carries no surrounding
whitespace and is nonempty, and every SNCL row is a non-blank line that
`StreamEpoch.from_snclline` accepts. -/
def WellFormedBlock (parse : String → Option StreamEpoch) (b : String × List String) : Prop :=
  pyStrip b.1 = b.1 ∧ b.1 ≠ "" ∧ ∀ row ∈ b.2, pyStrip row ≠ "" ∧ (parse row).isSome

/-- The skip decision for the URL of a block (entered with `skip_url =
False`): `true` iff the error ratio was read successfully and exceeds the
threshold. -/
def skipsUrl (budget : String → Except Unit Rat) (threshold : Rat) (url : String) : Bool :=
  skipDecision budget threshold url false

/-- The stream epochs of the rows that `_emerge_routes` parses and keeps:
rows of blocks whose URL is not skipped, in order. -/
def nonSkippedEpochs (budget : String → Except Unit Rat) (threshold : Rat)
    (parse : String → Option StreamEpoch) (bs : List (String × List String)) :
    List StreamEpoch :=
  bs.flatMap fun b => if skipsUrl budget threshold b.1 then [] else b.2.filterMap parse

/-- The routes `_emerge_routes` emits for the given blocks when no
exception is raised. -/
def expectedRoutes (budget : String → Except Unit Rat) (threshold : Rat)
    (parse : String → Option StreamEpoch) (bs : List (String × List String)) :
    List Route :=
  bs.flatMap fun b =>
    if skipsUrl budget threshold b.1 then []
    else (b.2.filterMap parse).map fun se => { url := b.1, streamEpochs := [se] }

/-- The running `total_stream_duration` after consuming the given epochs. -/
def foldTotal (dur : StreamEpoch → Int) (t : Int) (ses : List StreamEpoch) : Int :=
  ses.foldl (fun acc se => addTimedelta acc (dur se)) t

/-- Whether consuming the given epochs, starting from running total `t`,
makes `validate_stream_durations` raise at some row. -/
def hasViolation (cfg : EmergeConfig) (dur : StreamEpoch → Int) : Int → List StreamEpoch → Bool
  | _, [] => false
  | t, se :: rest =>
    let total := addTimedelta t (dur se)
    validateStreamDurations cfg (dur se) total || hasViolation cfg dur total rest

/-! ### The URL set and `_gc_response_code_stats` (process.py lines 383-388)

`finalize` runs `_gc_response_code_stats`, which calls
`self.gc_cretry_budget(url)` for every url in `self._routed_urls` — the
first component of the pair returned by `_emerge_routes`. -/

/-- The reference scanner of claim C10: the URLs whose block was terminated
by a blank (or empty) line.  A non-blank line seen while no URL is open
opens a block for its stripped content; a blank line seen while a URL is
open terminates the block and collects the URL. -/
def terminatedUrlsGo : Option String → Finset String → List String → Finset String
  | _, acc, [] => acc
  | url, acc, l :: ls =>
    if pyFalsy url then terminatedUrlsGo (some (pyStrip l)) acc ls
    else if pyStrip l = "" then terminatedUrlsGo none (insert (url.getD "") acc) ls
    else terminatedUrlsGo url acc ls

/-- The URLs of the routing text whose block was terminated by a blank (or
empty) line. -/
def terminatedUrls (lines : List String) : Finset String :=
  terminatedUrlsGo none ∅ lines

/-- `BaseRequestProcessor._gc_response_code_stats`: the set of URLs passed
to `gc_cretry_budget` is exactly `self._routed_urls`. -/
def gcUrls (routedUrls : Finset String) : Finset String := routedUrls

/-! ## `_route` status handling and `federate` (process.py lines 189-291)

The routing HTTP call is abstracted to its outcome.  `_route` raises the
request's `nodata` error on a no-content status, 500 on any other non-200
status (via `raise_for_status`, which raises exactly for statuses ≥ 400, or
via the explicit `!= 200` check), and otherwise hands the body to
`_emerge_routes`.  `federate` maps `aiohttp.ClientError` /
`asyncio.TimeoutError` from the routing call to 500 and an empty route list
to the `nodata` error.  (`FDSNHTTPError` is an `aiohttp.web` server-side
exception, not an `aiohttp.ClientError`, so errors raised inside `_route`
pass through `federate`'s `except` clause unchanged.)  The embedding covers
the cache-miss path of the `cached` decorator. -/

/-- `FDSNWS_NO_CONTENT_CODES` from `eidaws.utils.settings`. -/
def noContentCodes : List Nat := [204, 404]

/-- Errors surfaced by the embedded `federate`. -/
inductive FedError where
  /-- `FDSNHTTPError.create(status, ...)` -/
  | http (status : Nat)
  /-- an SNCL parse failure propagating out of `_emerge_routes` -/
  | snclParseFailure
deriving DecidableEq, Repr

/-- Outcome of the routing-service call issued by `_route`. -/
inductive RoutingOutcome where
  /-- the call raised `aiohttp.ClientError` -/
  | clientError
  /-- the call raised `asyncio.TimeoutError` -/
  | timeoutError
  /-- a response with the given status and body (already split at `"\n"`) -/
  | response (status : Nat) (lines : List String)

/-- Status handling of `BaseRequestProcessor._route` after the routing
response arrived (process.py lines 208-248). -/
def routeHandleResponse (cfg : EmergeConfig) (budget : String → Except Unit Rat)
    (parse : String → Option StreamEpoch) (dur : StreamEpoch → Int) (nodata : Nat)
    (status : Nat) (lines : List String) : Except FedError (Finset String × List Route) :=
  if status ∈ noContentCodes then .error (.http nodata)
  else if status ≥ 400 then .error (.http 500)
  else if status ≠ 200 then .error (.http 500)
  else
    match emergeRoutes cfg budget parse dur lines with
    | .error .requestTooLarge => .error (.http 413)
    | .error .snclParseFailure => .error .snclParseFailure
    | .ok res => .ok res

/-- `BaseRequestProcessor.federate` up to the `_make_response` call: either
the demultiplexed routes handed to dispatch, or the FDSN error raised
before any endpoint request is made. -/
def federate (cfg : EmergeConfig) (budget : String → Except Unit Rat)
    (parse : String → Option StreamEpoch) (dur : StreamEpoch → Int) (nodata : Nat)
    (o : RoutingOutcome) : Except FedError (List Route) :=
  match o with
  | .clientError => .error (.http 500)
  | .timeoutError => .error (.http 500)
  | .response status lines =>
    match routeHandleResponse cfg budget parse dur nodata status lines with
    | .error e => .error e
    | .ok (_, routes) =>
      if routes.isEmpty then .error (.http nodata) else .ok routes

/-! ## Route grouping and the availability `_dispatch`
(fdsnws_availability/process.py lines 131-207)

`group_routes_by` is defined in the part of
`eidaws/federator/utils/process.py` that is outside the provided slice
(only its import and call sites are visible); modelled from the spec
("routes grouped by a format-specific key"): routes are collected into a
dict keyed by the attribute path, so group keys appear in first-occurrence
order and each group keeps the original route order. -/

/-- Append a route to the group of its key, or open a new group at the
end. -/
def addToGroup {κ : Type} [DecidableEq κ] (acc : List (κ × List Route)) (k : κ) (r : Route) :
    List (κ × List Route) :=
  match acc with
  | [] => [(k, [r])]
  | (k', rs) :: rest =>
    if k' = k then (k', rs ++ [r]) :: rest else (k', rs) :: addToGroup rest k r

/-- Modelled from the spec: `group_routes_by(routes, key=...)` (the
definition lives outside the source slice).  Insertion-ordered grouping, as
for a Python `dict` of lists. -/
def groupRoutesBy {κ : Type} [DecidableEq κ] (key : Route → κ) (routes : List Route) :
    List (κ × List Route) :=
  routes.foldl (fun acc r => addToGroup acc (key r) r) []

/-- The `key="network"` attribute path: the network code of the route's
first stream epoch. -/
def keyNetwork (r : Route) : String :=
  match r.streamEpochs with
  | se :: _ => se.stream.network
  | [] => ""

/-- The `key="network.station.location.channel"` attribute path: the
stream identity of the route's first stream epoch. -/
def keyNSLC (r : Route) : SnclStream :=
  match r.streamEpochs with
  | se :: _ => se.stream
  | [] => default

/-- `datetime.datetime.max` (9999-12-31 23:59:59.999999) in microseconds
since the epoch; the distinguished value `none_as_max` substitutes for an
open endtime. -/
def dtMax : Int := 253402300799999999

/-- Modelled from the spec: `eidaws.utils.sncl.none_as_max` — an open
endtime is treated as `datetime.datetime.max`. -/
def noneAsMax : Option Int → Int
  | none => dtMax
  | some t => t

/-- Modelled from the spec: `eidaws.utils.sncl.max_as_none` — an endtime
equal to `datetime.datetime.max` is mapped back to an open endtime. -/
def maxAsNone (t : Int) : Option Int :=
  if t = dtMax then none else some t

/-- Exceptions leaving `reduce_to_extent`. -/
inductive ReduceError where
  /-- `ValueError`: either the explicit `raise ValueError("Distributed
  stream epochs not allowed.")` or `max()` of an empty sequence -/
  | valueError
  /-- the `assert len(r.stream_epochs) == 1` failing -/
  | assertionFailed
deriving DecidableEq, Repr

/-- The body of the `for group_key, routes in grouped.items()` loop of
`reduce_to_extent`: collapse one `network.station.location.channel` group
to a single route.  `ts` collects every starttime and every
`none_as_max`-substituted endtime; the reduced stream epoch spans
`min(ts)..max_as_none(max(ts))`; `_stream` and the route URL are taken from
the last route of the group, and a group spanning more than one distinct
URL raises `ValueError`. -/
def reduceGroup (rs : List Route) : Except ReduceError Route :=
  if (rs.all fun r => r.streamEpochs.length == 1) = false then .error .assertionFailed
  else
    match rs.getLast? with
    | none => .error .valueError
    | some rlast =>
      match rlast.streamEpochs.head? with
      | none => .error .assertionFailed
      | some selast =>
        let ts : List Int :=
          rs.flatMap fun r => r.streamEpochs.flatMap fun se => [se.starttime, noneAsMax se.endtime]
        match ts with
        | [] => .error .valueError
        | t :: ts' =>
          let urls : Finset String := rs.foldl (fun s (r : Route) => insert r.url s) ∅
          let tmin := ts'.foldl min t
          let tmax := ts'.foldl max t
          if urls.card ≠ 1 then .error .valueError
          else .ok { url := rlast.url,
                     streamEpochs := [{ stream := selast.stream,
                                        starttime := tmin,
                                        endtime := maxAsNone tmax }] }

/-- `reduce_to_extent` over the already-grouped routes: the reduced route
list, or the first exception. -/
def reduceToExtentGo : List (SnclStream × List Route) → Except ReduceError (List Route)
  | [] => .ok []
  | (_, rs) :: rest =>
    match reduceGroup rs with
    | .error e => .error e
    | .ok route =>
      match reduceToExtentGo rest with
      | .error e => .error e
      | .ok l => .ok (route :: l)

/-- The `reduce_to_extent` closure of `AvailabilityRequestProcessor._dispatch`
(fdsnws_availability/process.py lines 148-181). -/
def reduceToExtent (routes : List Route) : Except ReduceError (List Route) :=
  reduceToExtentGo (groupRoutesBy keyNSLC routes)

/-- Exceptions leaving `_dispatch`. -/
inductive DispatchError where
  /-- `FDSNHTTPError.create(status, ...)` (the `except ValueError` arm
  raises it with the request's `nodata` status) -/
  | http (status : Nat)
  /-- an `AssertionError`, which the `except ValueError` clause does not
  catch -/
  | assertionFailed
deriving DecidableEq, Repr

/-- The `for net, _routes in grouped_routes.items()` loop of `_dispatch`:
replace every network group by its extent-reduced routes, mapping
`ValueError` to the request's `nodata` FDSN error. -/
def dispatchReduce (nodata : Nat) :
    List (String × List Route) → Except DispatchError (List (String × List Route))
  | [] => .ok []
  | (net, rs) :: rest =>
    match reduceToExtent rs with
    | .error .valueError => .error (.http nodata)
    | .error .assertionFailed => .error .assertionFailed
    | .ok reduced =>
      match dispatchReduce nodata rest with
      | .error e => .error e
      | .ok l => .ok ((net, reduced) :: l)

/-- Python `dict` lookup `grouped_routes[net]` on the association list. -/
def lookupGroup (grouped : List (String × List Route)) (net : String) : List Route :=
  match grouped.find? fun p => p.1 = net with
  | some p => p.2
  | none => []

/-- Python compares strings code point by code point; `sorted` on the
network codes uses that order.  Executable lexicographic `<=` on code-point
lists (kept executable so concrete dispatches reduce inside the kernel). -/
def charListLe : List Char → List Char → Bool
  | [], _ => true
  | _ :: _, [] => false
  | a :: as, b :: bs =>
    if a.toNat < b.toNat then true
    else if b.toNat < a.toNat then false
    else charListLe as bs

/-- Executable lexicographic `<` on code-point lists. -/
def charListLt : List Char → List Char → Bool
  | [], [] => false
  | [], _ :: _ => true
  | _ :: _, [] => false
  | a :: as, b :: bs =>
    if a.toNat < b.toNat then true
    else if b.toNat < a.toNat then false
    else charListLt as bs

/-- Python's `<=` on strings. -/
def strLe (a b : String) : Prop := charListLe a.data b.data = true

/-- Python's `<` on strings. -/
def strLt (a b : String) : Prop := charListLt a.data b.data = true

instance strLeDecidable : DecidableRel strLe := fun a b =>
  inferInstanceAs (Decidable (charListLe a.data b.data = true))

instance strLtDecidable : DecidableRel strLt := fun a b =>
  inferInstanceAs (Decidable (charListLt a.data b.data = true))

/-- `AvailabilityRequestProcessor._dispatch`: group the routes by network,
extent-reduce each group, then submit one job per network in
`sorted(grouped_routes)` order, with `priority` the `enumerate` index.  The
result is the submitted `(priority, network, routes)` jobs in submission
order, or the exception raised instead. -/
def dispatchAvailability (nodata : Nat) (routes : List Route) :
    Except DispatchError (List (Nat × String × List Route)) :=
  match dispatchReduce nodata (groupRoutesBy keyNetwork routes) with
  | .error e => .error e
  | .ok grouped =>
    let sortedKeys := List.insertionSort strLe (grouped.map Prod.fst)
    .ok (sortedKeys.enum.map fun p => (p.1, p.2, lookupGroup grouped p.2))

/-! ## `AvailabilityAsyncWorker.run` (fdsnws_availability/process.py
lines 32-58)

After gathering the `_fetch` results the worker parses each returned
response (`_parse_response` / the abstract `_load`), buffers non-empty data
keyed by the stream epoch's `id()`, and — if the buffer is non-empty —
drains exactly one `(priority, serialized)` fragment.  Parsing and
serialization are abstract (`_load` / `_dump` raise `NotImplementedError`
in this class), so the embedding takes the parsed data of each route
(`none` for a failed fetch, a failed read, or empty data) and the
serializer as inputs. -/

/-- Python dict assignment `self._buf[se.id()] = data` on an association
list keyed by the stream epoch (`se.id()` identifies the epoch; modelled
from the spec). -/
def bufInsert (buf : List (StreamEpoch × String)) (k : StreamEpoch) (v : String) :
    List (StreamEpoch × String) :=
  if buf.any fun p => p.1 == k then
    buf.map fun p => if p.1 == k then (k, v) else p
  else buf ++ [(k, v)]

/-- `AvailabilityAsyncWorker.run` after the fetches: the fragments pushed
onto the drain, in order. -/
def availabilityWorkerRun (dump : List (StreamEpoch × String) → String) (priority : Nat)
    (results : List (Route × Option String)) : List (Nat × String) :=
  let buf := results.foldl
    (fun buf pr =>
      match pr.2 with
      | none => buf
      | some data =>
        match pr.1.streamEpochs with
        | [] => buf
        | se :: _ => bufInsert buf se data)
    []
  if buf.isEmpty then [] else [(priority, dump buf)]

/-! ### Spec-side extent helpers

Reference definitions used to state the extent-reduction claim: the
starttimes and (`none_as_max`-substituted) endtimes of a route group, and
minimum/maximum of an integer list. -/

/-- All starttimes of a group's stream epochs. -/
def groupStarts (rs : List Route) : List Int :=
  rs.flatMap fun r => r.streamEpochs.map fun se => se.starttime

/-- All endtimes of a group's stream epochs, an open end counted as
`datetime.datetime.max`. -/
def groupEnds (rs : List Route) : List Int :=
  rs.flatMap fun r => r.streamEpochs.map fun se => noneAsMax se.endtime

/-- `min` of an integer list (`none` for the empty list, as Python's
`min(set())` has no value). -/
def listMin : List Int → Option Int
  | [] => none
  | t :: ts => some (ts.foldl min t)

/-- `max` of an integer list. -/
def listMax : List Int → Option Int
  | [] => none
  | t :: ts => some (ts.foldl max t)

/-- The list `ts` built by `reduce_to_extent`'s group loop: every
starttime and substituted endtime, in loop order. -/
def groupTs (rs : List Route) : List Int :=
  rs.flatMap fun r => r.streamEpochs.flatMap fun se => [se.starttime, noneAsMax se.endtime]

/-! ## Concrete instances

Small concrete configurations, routing responses and routes used to
evaluate the embedded functions on closed inputs. -/

instance wellFormedBlockDecidable (parse : String → Option StreamEpoch)
    (b : String × List String) : Decidable (WellFormedBlock parse b) := by
  unfold WellFormedBlock
  exact inferInstance

/-- A concrete stream identity. -/
def wStream : SnclStream :=
  { network := "NA", station := "S", location := "L", channel := "C" }

/-- A second concrete stream identity, on another network. -/
def wStreamNB : SnclStream :=
  { network := "NB", station := "S", location := "L", channel := "C" }

/-- A concrete stream epoch. -/
def wEpoch : StreamEpoch := { stream := wStream, starttime := 0, endtime := some 1000000 }

/-- A parse function for concrete runs: every SNCL line parses to
`wEpoch`. -/
def wParse : String → Option StreamEpoch := fun _ => some wEpoch

/-- Every epoch lasts 100 microseconds. -/
def wDur : StreamEpoch → Int := fun _ => 100

/-- A retry-budget read: URL `"a"` has error ratio 2, any other read
raises. -/
def wBudget : String → Except Unit Rat := fun u => if u = "a" then .ok 2 else .error ()

/-- A retry-budget read that always raises. -/
def wBudgetErr : String → Except Unit Rat := fun _ => .error ()

/-- No duration limits, threshold 1. -/
def wCfg : EmergeConfig :=
  { maxStreamEpochDuration := none, maxTotalStreamEpochDuration := none,
    clientRetryBudgetThreshold := 1 }

/-- Per-epoch duration limit of 10 microseconds, threshold 1. -/
def wCfgMax : EmergeConfig :=
  { maxStreamEpochDuration := some 10, maxTotalStreamEpochDuration := none,
    clientRetryBudgetThreshold := 1 }

/-- Two routing blocks: URL `"a"` (whose error ratio 2 exceeds the
threshold 1) and URL `"b"` (whose error-ratio read raises). -/
def wBlocks : List (String × List String) := [("a", ["r1"]), ("b", ["r2"])]

/-- One routing block whose single epoch violates `wCfgMax`. -/
def wBlocksViolation : List (String × List String) := [("c", ["r1"])]

/-- A routing text: one URL with one row, terminated by a blank line. -/
def wLines : List String := ["a", "r1", ""]

/-- Routes on two networks, one granular route each. -/
def wRouteA : Route := { url := "ua", streamEpochs := [{ stream := wStream, starttime := 0, endtime := some 10 }] }

/-- Second route of network NA: same stream, later epoch, same URL. -/
def wRouteA2 : Route := { url := "ua", streamEpochs := [{ stream := wStream, starttime := 5, endtime := none }] }

/-- Same stream identity as `wRouteA` but a different endpoint URL. -/
def wRouteAz : Route := { url := "uz", streamEpochs := [{ stream := wStream, starttime := 5, endtime := none }] }

/-- A granular route on network NB. -/
def wRouteB : Route := { url := "ub", streamEpochs := [{ stream := wStreamNB, starttime := 0, endtime := some 10 }] }

/-- A serializer for concrete worker runs. -/
def wDump : List (StreamEpoch × String) → String := fun _ => "x"

/-! # Theorems -/

/-! ## C3 — `_join_with_exception_handling` -/

/-- **C3.** When waiting on the drain queue during finalization: a timeout
with the response never prepared raises 413; a completed join with the
response never prepared raises the request's nodata status; a prepared
response raises nothing — in particular a timeout with a prepared response
is swallowed. -/
theorem join_with_exception_handling_cases (nodata : Nat) :
    joinWithExceptionHandling true false nodata = some 413
    ∧ joinWithExceptionHandling false false nodata = some nodata
    ∧ joinWithExceptionHandling true true nodata = none
    ∧ joinWithExceptionHandling false true nodata = none :=
  ⟨rfl, rfl, rfl, rfl⟩

/-! ## C4 — order of the close actions run by `finalize` -/

/-- **C4, counterexample.** The claimed order — RetryBudget GC, then worker
cancellation, then the cache flush — does not hold: the `cached` decorator
inserts the cache-set step at index 0 of `_await_on_close`, so `finalize`
runs it first, not last. -/
theorem finalize_order_claim_counterexample :
    ¬(finalizeActions.indexOf CloseAction.gcResponseCodeStats <
        finalizeActions.indexOf CloseAction.teardownTasks
      ∧ finalizeActions.indexOf CloseAction.teardownTasks <
        finalizeActions.indexOf CloseAction.setCache) := by
  decide

/-- **C4, amended.** On the cache-miss path `finalize` awaits, in this
order: (1) the cache-set step queued by the caching decorator (flushing the
cache accumulator under the request key), (2) the RetryBudget GC for every
routed URL, (3) the cancellation of still-pending worker tasks. -/
theorem finalize_order_cache_first :
    finalizeActions =
      [CloseAction.setCache, CloseAction.gcResponseCodeStats, CloseAction.teardownTasks] :=
  rfl

/-! ## C5 — retry-budget recording by the availability worker -/

/-- **C5, counterexample.** On a received HTTP response with status 500 the
availability worker records nothing in the RetryBudget: `_fetch` returns
from the `except aiohttp.ClientResponseError` arm before reaching
`update_cretry_budget`. -/
theorem availability_fetch_budget_counterexample :
    (availabilityFetch (.response 500)).budgetRecords = []
    ∧ ¬(500 ∈ (availabilityFetch (.response 500)).budgetRecords) := by
  decide

/-- **C5, amended.** On a transport or timeout error the availability
worker records status 503 in the RetryBudget and finishes without handing a
response back; on a received HTTP response it records the observed status
only when that status is 200 — responses with any other status (including
4xx/5xx and the no-content codes) are handled without any RetryBudget
record. -/
theorem availability_fetch_budget_records :
    availabilityFetch .transportError = { budgetRecords := [503], emitsResponse := false }
    ∧ ∀ s : Nat,
        (availabilityFetch (.response s)).budgetRecords = (if s = 200 then [200] else [])
        ∧ (availabilityFetch (.response s)).emitsResponse = decide (s = 200) := by
  refine ⟨rfl, fun s => ?_⟩
  by_cases h4 : s ≥ 400
  · have h2 : s ≠ 200 := by omega
    simp [availabilityFetch, h4, h2]
  · by_cases h2 : s = 200
    · subst h2
      simp [availabilityFetch]
    · simp [availabilityFetch, h4, h2]

/-! ## C9 — wrapped stream writes -/

/-- **C9.** For every sequence of fragments written through the stream
response created by `make_stream_response`, as long as the underlying wire
writes only succeed or raise `ConnectionResetError`, the wrapped write
never propagates an exception, and the fragments dumped to the cache buffer
are exactly those whose wire write succeeded — a reset does not abort cache
population, later successful fragments are still dumped. -/
theorem stream_write_swallows_reset (frags : List (String × WireResult))
    (h : ∀ p ∈ frags, p.2 ≠ WireResult.otherError) :
    writeAll frags = .ok ((frags.filter fun p => p.2 == WireResult.ok).map Prod.fst) := by
  induction frags with
  | nil => rfl
  | cons p rest ih =>
    obtain ⟨frag, r⟩ := p
    have hr : r ≠ WireResult.otherError := h (frag, r) (List.mem_cons_self _ _)
    have hrest : ∀ q ∈ rest, q.2 ≠ WireResult.otherError :=
      fun q hq => h q (List.mem_cons_of_mem _ hq)
    cases r with
    | ok => simp [writeAll, wrappedWrite, ih hrest]
    | connectionReset => simp [writeAll, wrappedWrite, ih hrest]
    | otherError => exact absurd rfl hr

/-- **C9, witness.** A concrete run: the first fragment's wire write is
reset, the second succeeds; nothing propagates and the second fragment is
dumped. -/
theorem stream_write_swallows_reset_witness :
    writeAll [("a", WireResult.connectionReset), ("b", WireResult.ok)] = .ok ["b"] := by
  exact stream_write_swallows_reset
    [("a", WireResult.connectionReset), ("b", WireResult.ok)] (by decide)

/-! ## Lemmas on the `_emerge_routes` loop -/

variable {cfg : EmergeConfig} {budget : String → Except Unit Rat}
variable {parse : String → Option StreamEpoch} {dur : StreamEpoch → Int}

theorem pyFalsy_some_ne {u : String} (h : u ≠ "") : pyFalsy (some u) = false := by
  simp [pyFalsy]
  exact h

theorem skipsUrl_def (u : String) :
    skipsUrl budget cfg.clientRetryBudgetThreshold u =
      skipDecision budget cfg.clientRetryBudgetThreshold u false := rfl

theorem emergeGo_cons (st : EmergeState) (l : String) (ls : List String) :
    emergeGo cfg budget parse dur st (l :: ls) =
      match emergeStep cfg budget parse dur st l with
      | .error e => .error e
      | .ok st' => emergeGo cfg budget parse dur st' ls := rfl

theorem emergeGo_append (st : EmergeState) (xs ys : List String) :
    emergeGo cfg budget parse dur st (xs ++ ys) =
      match emergeGo cfg budget parse dur st xs with
      | .error e => .error e
      | .ok st' => emergeGo cfg budget parse dur st' ys := by
  induction xs generalizing st with
  | nil => rfl
  | cons l ls ih =>
    rw [List.cons_append, emergeGo_cons, emergeGo_cons]
    cases emergeStep cfg budget parse dur st l with
    | error e => rfl
    | ok st' => exact ih st'

theorem emergeStep_url (st : EmergeState) (l : String) (h : pyFalsy st.url = true) :
    emergeStep cfg budget parse dur st l =
      .ok { st with url := some (pyStrip l),
                    skipUrl := skipDecision budget cfg.clientRetryBudgetThreshold (pyStrip l)
                                 st.skipUrl } := by
  simp [emergeStep, h]

theorem emergeStep_blank (st : EmergeState) (l : String) (h : pyFalsy st.url = false)
    (h2 : pyStrip l = "") :
    emergeStep cfg budget parse dur st l =
      .ok { st with urls := insert (st.url.getD "") st.urls, url := none, skipUrl := false } := by
  simp [emergeStep, h, h2]

theorem emergeStep_skipped (st : EmergeState) (l : String) (h : pyFalsy st.url = false)
    (h2 : pyStrip l ≠ "") (h3 : st.skipUrl = true) :
    emergeStep cfg budget parse dur st l = .ok st := by
  simp [emergeStep, h, h2, h3]

theorem emergeStep_row (st : EmergeState) (l : String) (se : StreamEpoch)
    (h : pyFalsy st.url = false) (h2 : pyStrip l ≠ "") (h3 : st.skipUrl = false)
    (h4 : parse l = some se) :
    emergeStep cfg budget parse dur st l =
      (if validateStreamDurations cfg (dur se)
            (addTimedelta st.totalStreamDuration (dur se)) then
        .error .requestTooLarge
       else
        .ok { st with
              routes := st.routes ++ [{ url := st.url.getD "", streamEpochs := [se] }],
              totalStreamDuration := addTimedelta st.totalStreamDuration (dur se) }) := by
  simp [emergeStep, h, h2, h3, h4]

theorem foldTotal_cons (t : Int) (se : StreamEpoch) (l : List StreamEpoch) :
    foldTotal dur t (se :: l) = foldTotal dur (addTimedelta t (dur se)) l := rfl

theorem foldTotal_append (t : Int) (xs ys : List StreamEpoch) :
    foldTotal dur t (xs ++ ys) = foldTotal dur (foldTotal dur t xs) ys := by
  simp [foldTotal, List.foldl_append]

theorem hasViolation_append (t : Int) (xs ys : List StreamEpoch) :
    hasViolation cfg dur t (xs ++ ys) =
      (hasViolation cfg dur t xs || hasViolation cfg dur (foldTotal dur t xs) ys) := by
  induction xs generalizing t with
  | nil => simp [hasViolation, foldTotal]
  | cons se l ih => simp [hasViolation, foldTotal_cons, ih, Bool.or_assoc]

theorem emergeGo_skipped_rows (u : String) (hu : u ≠ "") (rows : List String)
    (hrows : ∀ row ∈ rows, pyStrip row ≠ "") (st : EmergeState)
    (hurl : st.url = some u) (hskip : st.skipUrl = true) :
    emergeGo cfg budget parse dur st rows = .ok st := by
  induction rows with
  | nil => rfl
  | cons row rest ih =>
    have hf : pyFalsy st.url = false := by rw [hurl]; exact pyFalsy_some_ne hu
    rw [emergeGo_cons,
        emergeStep_skipped st row hf (hrows row (List.mem_cons_self _ _)) hskip]
    exact ih fun r hr => hrows r (List.mem_cons_of_mem _ hr)

theorem emergeGo_rows (u : String) (hu : u ≠ "") (rows : List String)
    (hrows : ∀ row ∈ rows, pyStrip row ≠ "" ∧ (parse row).isSome) (st : EmergeState)
    (hurl : st.url = some u) (hskip : st.skipUrl = false) :
    emergeGo cfg budget parse dur st rows =
      (if hasViolation cfg dur st.totalStreamDuration (rows.filterMap parse) then
        .error .requestTooLarge
       else
        .ok { st with
              routes := st.routes ++
                (rows.filterMap parse).map fun se => { url := u, streamEpochs := [se] },
              totalStreamDuration :=
                foldTotal dur st.totalStreamDuration (rows.filterMap parse) }) := by
  induction rows generalizing st with
  | nil => simp [emergeGo, hasViolation, foldTotal]
  | cons row rest ih =>
    obtain ⟨htrim, hsome⟩ := hrows row (List.mem_cons_self _ _)
    obtain ⟨se, hse⟩ := Option.isSome_iff_exists.mp hsome
    have hf : pyFalsy st.url = false := by rw [hurl]; exact pyFalsy_some_ne hu
    have hgetd : st.url.getD "" = u := by rw [hurl]; rfl
    rw [emergeGo_cons, emergeStep_row st row se hf htrim hskip hse]
    rw [List.filterMap_cons_some hse]
    cases hv : validateStreamDurations cfg (dur se)
        (addTimedelta st.totalStreamDuration (dur se)) with
    | true =>
      simp only [hv, if_true, hasViolation, Bool.true_or, if_pos]
    | false =>
      simp only [hv, if_false, Bool.false_eq_true]
      have ih' := ih (fun r hr => hrows r (List.mem_cons_of_mem _ hr))
        { st with
          routes := st.routes ++ [{ url := st.url.getD "", streamEpochs := [se] }],
          totalStreamDuration := addTimedelta st.totalStreamDuration (dur se) }
        (by simp [hurl]) (by simp [hskip])
      rw [ih']
      simp only [hasViolation, hv, Bool.false_or, foldTotal_cons, hgetd,
        List.map_cons, List.append_assoc, List.singleton_append]

theorem renderBlocks_cons (b : String × List String) (bs : List (String × List String)) :
    renderBlocks (b :: bs) = b.1 :: (b.2 ++ ("" :: renderBlocks bs)) := by
  simp [renderBlocks, renderBlock, List.flatMap_cons, List.append_assoc]

theorem pyStrip_empty : pyStrip "" = "" := rfl

theorem emergeGo_cons_ok (st st' : EmergeState) (l : String) (ls : List String)
    (h : emergeStep cfg budget parse dur st l = .ok st') :
    emergeGo cfg budget parse dur st (l :: ls) = emergeGo cfg budget parse dur st' ls := by
  rw [emergeGo_cons, h]

theorem emergeGo_skipped_rows_tail (u : String) (hu : u ≠ "") (rows : List String)
    (hrows : ∀ row ∈ rows, pyStrip row ≠ "") (st : EmergeState)
    (hurl : st.url = some u) (hskip : st.skipUrl = true) (tail : List String) :
    emergeGo cfg budget parse dur st (rows ++ tail) = emergeGo cfg budget parse dur st tail := by
  induction rows with
  | nil => rfl
  | cons row rest ih =>
    have hf : pyFalsy st.url = false := by rw [hurl]; exact pyFalsy_some_ne hu
    rw [List.cons_append,
        emergeGo_cons_ok st st _ _
          (emergeStep_skipped st row hf (hrows row (List.mem_cons_self _ _)) hskip)]
    exact ih fun r hr => hrows r (List.mem_cons_of_mem _ hr)

theorem emergeGo_rows_tail (u : String) (hu : u ≠ "") (rows : List String)
    (hrows : ∀ row ∈ rows, pyStrip row ≠ "" ∧ (parse row).isSome) (st : EmergeState)
    (hurl : st.url = some u) (hskip : st.skipUrl = false) (tail : List String) :
    emergeGo cfg budget parse dur st (rows ++ tail) =
      (if hasViolation cfg dur st.totalStreamDuration (rows.filterMap parse) then
        .error .requestTooLarge
       else
        emergeGo cfg budget parse dur
          { st with
            routes := st.routes ++
              (rows.filterMap parse).map fun se => { url := u, streamEpochs := [se] },
            totalStreamDuration :=
              foldTotal dur st.totalStreamDuration (rows.filterMap parse) } tail) := by
  rw [emergeGo_append, emergeGo_rows u hu rows hrows st hurl hskip]
  cases hv : hasViolation cfg dur st.totalStreamDuration (rows.filterMap parse) with
  | true => simp [hv]
  | false => simp [hv]

theorem emergeGo_blocks (blocks : List (String × List String))
    (hwf : ∀ b ∈ blocks, WellFormedBlock parse b)
    (st : EmergeState) (hurl : st.url = none) (hskip : st.skipUrl = false) :
    emergeGo cfg budget parse dur st (renderBlocks blocks) =
      (if hasViolation cfg dur st.totalStreamDuration
          (nonSkippedEpochs budget cfg.clientRetryBudgetThreshold parse blocks) then
        .error .requestTooLarge
       else
        .ok { st with
              urls := blocks.foldl (fun s b => insert b.1 s) st.urls,
              routes := st.routes ++
                expectedRoutes budget cfg.clientRetryBudgetThreshold parse blocks,
              totalStreamDuration := foldTotal dur st.totalStreamDuration
                (nonSkippedEpochs budget cfg.clientRetryBudgetThreshold parse blocks) }) := by
  induction blocks generalizing st with
  | nil =>
    simp [renderBlocks, nonSkippedEpochs, expectedRoutes, hasViolation, foldTotal, emergeGo]
  | cons b bs ih =>
    obtain ⟨htrim, hne, hrows⟩ := hwf b (List.mem_cons_self _ _)
    have hwf' : ∀ b' ∈ bs, WellFormedBlock parse b' :=
      fun b' hb' => hwf b' (List.mem_cons_of_mem _ hb')
    obtain ⟨url0, skip0, urls0, routes0, total0⟩ := st
    simp only [EmergeState.url] at hurl
    simp only [EmergeState.skipUrl] at hskip
    subst hurl hskip
    rw [renderBlocks_cons,
        emergeGo_cons_ok _ _ _ _ (emergeStep_url _ b.1 (by rfl))]
    simp only [htrim]
    rw [show skipDecision budget cfg.clientRetryBudgetThreshold b.1 false =
          skipsUrl budget cfg.clientRetryBudgetThreshold b.1 from rfl]
    cases hs : skipsUrl budget cfg.clientRetryBudgetThreshold b.1 with
    | true =>
      rw [emergeGo_skipped_rows_tail b.1 hne b.2 (fun r hr => (hrows r hr).1) _ rfl rfl,
          emergeGo_cons_ok _ _ _ _ (emergeStep_blank _ "" (pyFalsy_some_ne hne) pyStrip_empty),
          ih hwf' _ rfl rfl]
      simp only [nonSkippedEpochs, expectedRoutes, List.flatMap_cons, hs, if_pos,
        List.nil_append, List.foldl_cons, Option.getD_some]
    | false =>
      rw [emergeGo_rows_tail b.1 hne b.2 hrows _ rfl rfl]
      simp only [nonSkippedEpochs, expectedRoutes, List.flatMap_cons, hs,
        Bool.false_eq_true, if_false]
      rw [hasViolation_append]
      cases hv : hasViolation cfg dur total0 (b.2.filterMap parse) with
      | true => simp [hv]
      | false =>
        simp only [hv, Bool.false_or, Bool.false_eq_true, if_false]
        rw [emergeGo_cons_ok _ _ _ _ (emergeStep_blank _ "" (pyFalsy_some_ne hne) pyStrip_empty),
            ih hwf' _ rfl rfl]
        simp only [List.foldl_cons, foldTotal_append, List.append_assoc, Option.getD_some,
          nonSkippedEpochs, expectedRoutes]

theorem emergeRoutes_def (lines : List String) :
    emergeRoutes cfg budget parse dur lines =
      (emergeGo cfg budget parse dur initialEmergeState lines).map fun st =>
        (st.urls, st.routes) := by
  unfold emergeRoutes
  cases emergeGo cfg budget parse dur initialEmergeState lines <;> rfl

theorem pyFalsy_eq_false {o : Option String} (h : pyFalsy o = false) :
    ∃ u, o = some u ∧ u ≠ "" := by
  cases o with
  | none => simp [pyFalsy] at h
  | some s => exact ⟨s, rfl, by simpa [pyFalsy] using h⟩

theorem emergeStep_ok_cases {st st' : EmergeState} {l : String}
    (h : emergeStep cfg budget parse dur st l = .ok st') :
    (pyFalsy st.url = true ∧
      st' = { st with
              url := some (pyStrip l),
              skipUrl := skipDecision budget cfg.clientRetryBudgetThreshold (pyStrip l)
                           st.skipUrl })
    ∨ (pyFalsy st.url = false ∧ pyStrip l = "" ∧
      st' = { st with urls := insert (st.url.getD "") st.urls, url := none, skipUrl := false })
    ∨ (pyFalsy st.url = false ∧ pyStrip l ≠ "" ∧ st.skipUrl = true ∧ st' = st)
    ∨ (pyFalsy st.url = false ∧ pyStrip l ≠ "" ∧ st.skipUrl = false ∧
      ∃ se, parse l = some se ∧
        st' = { st with
                routes := st.routes ++ [{ url := st.url.getD "", streamEpochs := [se] }],
                totalStreamDuration := addTimedelta st.totalStreamDuration (dur se) }) := by
  unfold emergeStep at h
  by_cases h1 : pyFalsy st.url = true
  · rw [if_pos h1] at h
    injection h with h
    exact Or.inl ⟨h1, h.symm⟩
  · have h1' : pyFalsy st.url = false := by revert h1; cases pyFalsy st.url <;> simp
    rw [if_neg h1] at h
    by_cases h2 : pyStrip l = ""
    · rw [if_pos h2] at h
      injection h with h
      exact Or.inr (Or.inl ⟨h1', h2, h.symm⟩)
    · rw [if_neg h2] at h
      by_cases h3 : st.skipUrl = true
      · rw [if_pos h3] at h
        injection h with h
        exact Or.inr (Or.inr (Or.inl ⟨h1', h2, h3, h.symm⟩))
      · have h3' : st.skipUrl = false := by revert h3; cases st.skipUrl <;> simp
        rw [if_neg h3] at h
        cases hp : parse l with
        | none => rw [hp] at h; simp at h
        | some se =>
          rw [hp] at h
          dsimp only at h
          by_cases hv : validateStreamDurations cfg (dur se)
              (addTimedelta st.totalStreamDuration (dur se)) = true
          · rw [if_pos hv] at h; simp at h
          · rw [if_neg hv] at h
            injection h with h
            exact Or.inr (Or.inr (Or.inr ⟨h1', h2, h3', se, rfl, h.symm⟩))

theorem emergeGo_urls_mono {st st' : EmergeState} {ls : List String}
    (h : emergeGo cfg budget parse dur st ls = .ok st') : st.urls ⊆ st'.urls := by
  induction ls generalizing st with
  | nil => injection h with h; subst h; exact Finset.Subset.refl _
  | cons l ls ih =>
    rw [emergeGo_cons] at h
    cases hstep : emergeStep cfg budget parse dur st l with
    | error e => rw [hstep] at h; simp at h
    | ok st₁ =>
      rw [hstep] at h
      have hsub : st.urls ⊆ st₁.urls := by
        rcases emergeStep_ok_cases hstep with ⟨_, h1⟩ | ⟨_, _, h1⟩ | ⟨_, _, _, h1⟩ |
          ⟨_, _, _, se, _, h1⟩ <;> subst h1
        · exact Finset.Subset.refl _
        · exact Finset.subset_insert _ _
        · exact Finset.Subset.refl _
        · exact Finset.Subset.refl _
      exact hsub.trans (ih h)

theorem emergeGo_open_url_closed {st st' : EmergeState} {ls : List String} {u : String}
    (h : emergeGo cfg budget parse dur st ls = .ok st') (hurl : st.url = some u)
    (hu : u ≠ "") : u ∈ st'.urls ∨ st'.url = some u := by
  induction ls generalizing st with
  | nil => injection h with h; subst h; exact Or.inr hurl
  | cons l ls ih =>
    rw [emergeGo_cons] at h
    cases hstep : emergeStep cfg budget parse dur st l with
    | error e => rw [hstep] at h; simp at h
    | ok st₁ =>
      rw [hstep] at h
      rcases emergeStep_ok_cases hstep with ⟨hc, h1⟩ | ⟨hc, hb, h1⟩ | ⟨hc, hb, hs, h1⟩ |
        ⟨hc, hb, hs, se, hp, h1⟩
      · rw [hurl] at hc
        simp [pyFalsy] at hc
        exact absurd hc hu
      · subst h1
        refine Or.inl (emergeGo_urls_mono h ?_)
        rw [hurl]
        simp
      · subst h1; exact ih h hurl
      · subst h1; exact ih h hurl

theorem emergeGo_routes_url_ne {st st' : EmergeState} {ls : List String}
    (h : emergeGo cfg budget parse dur st ls = .ok st')
    (hne : ∀ r ∈ st.routes, r.url ≠ "") : ∀ r ∈ st'.routes, r.url ≠ "" := by
  induction ls generalizing st with
  | nil => injection h with h; subst h; exact hne
  | cons l ls ih =>
    rw [emergeGo_cons] at h
    cases hstep : emergeStep cfg budget parse dur st l with
    | error e => rw [hstep] at h; simp at h
    | ok st₁ =>
      rw [hstep] at h
      refine ih h ?_
      rcases emergeStep_ok_cases hstep with ⟨hc, h1⟩ | ⟨hc, hb, h1⟩ | ⟨hc, hb, hs, h1⟩ |
        ⟨hc, hb, hs, se, hp, h1⟩ <;> subst h1
      · exact hne
      · exact hne
      · exact hne
      · intro r hr
        rcases List.mem_append.mp hr with hr | hr
        · exact hne r hr
        · obtain ⟨u, huu, hu⟩ := pyFalsy_eq_false hc
          have : r = { url := st.url.getD "", streamEpochs := [se] } := by
            simpa using hr
          rw [this, huu]
          simpa using hu

theorem emergeGo_routes_in_urls {st st' : EmergeState} {ls : List String}
    (h : emergeGo cfg budget parse dur st ls = .ok st') :
    ∀ r ∈ st'.routes, r ∈ st.routes ∨ r.url ∈ st'.urls ∨ st'.url = some r.url := by
  induction ls generalizing st with
  | nil => injection h with h; subst h; exact fun r hr => Or.inl hr
  | cons l ls ih =>
    rw [emergeGo_cons] at h
    cases hstep : emergeStep cfg budget parse dur st l with
    | error e => rw [hstep] at h; simp at h
    | ok st₁ =>
      rw [hstep] at h
      intro r hr
      rcases ih h r hr with hmem | hrest | hopen
      · rcases emergeStep_ok_cases hstep with ⟨hc, h1⟩ | ⟨hc, hb, h1⟩ | ⟨hc, hb, hs, h1⟩ |
          ⟨hc, hb, hs, se, hp, h1⟩ <;> subst h1
        · exact Or.inl hmem
        · exact Or.inl hmem
        · exact Or.inl hmem
        · rcases List.mem_append.mp hmem with hmem | hmem
          · exact Or.inl hmem
          · obtain ⟨u, huu, hu⟩ := pyFalsy_eq_false hc
            have hre : r = { url := st.url.getD "", streamEpochs := [se] } := by
              simpa using hmem
            have hurl₁ : ({ st with
                routes := st.routes ++ [{ url := st.url.getD "", streamEpochs := [se] }],
                totalStreamDuration :=
                  addTimedelta st.totalStreamDuration (dur se) } : EmergeState).url =
                some r.url := by
              rw [hre, huu]
              simp
            rcases emergeGo_open_url_closed h hurl₁ (by rw [hre, huu]; simpa using hu) with
              hh | hh
            · exact Or.inr (Or.inl hh)
            · exact Or.inr (Or.inr hh)
      · exact Or.inr (Or.inl hrest)
      · exact Or.inr (Or.inr hopen)

theorem emergeGo_last_blank {st st' : EmergeState} {ls : List String} {l : String}
    (h : emergeGo cfg budget parse dur st ls = .ok st') (hl : ls.getLast? = some l)
    (hb : pyStrip l = "") : pyFalsy st'.url = true := by
  induction ls generalizing st with
  | nil => simp at hl
  | cons a ls ih =>
    rw [emergeGo_cons] at h
    cases hstep : emergeStep cfg budget parse dur st a with
    | error e => rw [hstep] at h; simp at h
    | ok st₁ =>
      rw [hstep] at h
      cases ls with
      | nil =>
        have ha : a = l := by simpa using hl
        subst ha
        injection h with h
        subst h
        rcases emergeStep_ok_cases hstep with ⟨hc, h1⟩ | ⟨hc, hb1, h1⟩ | ⟨hc, hb1, hs, h1⟩ |
          ⟨hc, hb1, hs, se, hp, h1⟩ <;> subst h1
        · simp [pyFalsy, hb]
        · simp [pyFalsy]
        · exact absurd hb hb1
        · exact absurd hb hb1
      | cons b ls' =>
        exact ih h (by simpa using hl)

theorem emergeGo_scanner {st st' : EmergeState} {ls : List String}
    (h : emergeGo cfg budget parse dur st ls = .ok st') :
    st'.urls = terminatedUrlsGo st.url st.urls ls := by
  induction ls generalizing st with
  | nil => injection h with h; subst h; rfl
  | cons l ls ih =>
    rw [emergeGo_cons] at h
    cases hstep : emergeStep cfg budget parse dur st l with
    | error e => rw [hstep] at h; simp at h
    | ok st₁ =>
      rw [hstep] at h
      rcases emergeStep_ok_cases hstep with ⟨hc, h1⟩ | ⟨hc, hb, h1⟩ | ⟨hc, hb, hs, h1⟩ |
        ⟨hc, hb, hs, se, hp, h1⟩
      · subst h1; rw [ih h]; simp [terminatedUrlsGo, hc]
      · subst h1; rw [ih h]; simp [terminatedUrlsGo, hc, hb]
      · subst h1; rw [ih h]; simp [terminatedUrlsGo, hc, hb]
      · subst h1; rw [ih h]; simp [terminatedUrlsGo, hc, hb]

theorem mem_expectedRoutes {threshold : Rat} {r : Route}
    {blocks : List (String × List String)} :
    r ∈ expectedRoutes budget threshold parse blocks ↔
      ∃ b, b ∈ blocks ∧ skipsUrl budget threshold b.1 = false ∧
        ∃ se, se ∈ b.2.filterMap parse ∧ r = { url := b.1, streamEpochs := [se] } := by
  rw [expectedRoutes, List.mem_flatMap]
  constructor
  · rintro ⟨b, hb, hr⟩
    cases hs : skipsUrl budget threshold b.1 with
    | true => rw [if_pos hs] at hr; simp at hr
    | false =>
      rw [if_neg (by simp [hs])] at hr
      rw [List.mem_map] at hr
      obtain ⟨se, hse, heq⟩ := hr
      exact ⟨b, hb, hs, se, hse, heq.symm⟩
  · rintro ⟨b, hb, hs, se, hse, heq⟩
    refine ⟨b, hb, ?_⟩
    rw [if_neg (by simp [hs]), List.mem_map]
    exact ⟨se, hse, heq.symm⟩

/-! ## C1 — retry-budget skipping in `_emerge_routes` -/

/-- **C1.** For every URL block of a well-formed routing response that
`_emerge_routes` accepts, the resolver emits no `Route` with that URL if
and only if the URL's retry-budget error ratio was read successfully and
exceeds `client_retry_budget_threshold`; in particular, when the
error-ratio read raises, the block's rows are included in the output
routes. -/
theorem resolver_skips_url_iff_budget_exceeded
    (blocks : List (String × List String)) (urls : Finset String) (routes : List Route)
    (hwf : ∀ b ∈ blocks, WellFormedBlock parse b)
    (hok : emergeRoutes cfg budget parse dur (renderBlocks blocks) = .ok (urls, routes)) :
    ∀ b ∈ blocks, b.2 ≠ [] →
      (((∀ r ∈ routes, r.url ≠ b.1) ↔
          skipsUrl budget cfg.clientRetryBudgetThreshold b.1 = true)
       ∧ (budget b.1 = .error () → ∃ r ∈ routes, r.url = b.1)) := by
  have hmaster := @emergeGo_blocks cfg budget parse dur blocks hwf initialEmergeState rfl rfl
  rw [emergeRoutes_def, hmaster] at hok
  cases hviol : hasViolation cfg dur initialEmergeState.totalStreamDuration
      (nonSkippedEpochs budget cfg.clientRetryBudgetThreshold parse blocks) with
  | true => rw [if_pos hviol] at hok; simp [Except.map] at hok
  | false =>
    rw [if_neg (by simp [hviol])] at hok
    simp only [Except.map, Except.ok.injEq, Prod.mk.injEq] at hok
    obtain ⟨-, hroutes⟩ := hok
    have hroutes' : routes = expectedRoutes budget cfg.clientRetryBudgetThreshold parse blocks := by
      rw [← hroutes]
      simp [initialEmergeState]
    subst hroutes'
    intro b hb hbne
    have hrow : ∃ se, se ∈ b.2.filterMap parse := by
      obtain ⟨row, hrowmem⟩ := List.exists_mem_of_ne_nil b.2 hbne
      obtain ⟨-, hsome⟩ := (hwf b hb).2.2 row hrowmem
      obtain ⟨se, hse⟩ := Option.isSome_iff_exists.mp hsome
      exact ⟨se, List.mem_filterMap.mpr ⟨row, hrowmem, hse⟩⟩
    constructor
    · constructor
      · intro hall
        cases hs : skipsUrl budget cfg.clientRetryBudgetThreshold b.1 with
        | true => rfl
        | false =>
          obtain ⟨se, hse⟩ := hrow
          have hmem : ({ url := b.1, streamEpochs := [se] } : Route) ∈
              expectedRoutes budget cfg.clientRetryBudgetThreshold parse blocks :=
            mem_expectedRoutes.mpr ⟨b, hb, hs, se, hse, rfl⟩
          exact absurd rfl (hall _ hmem)
      · intro hs r hr heq
        obtain ⟨b', hb', hs', se, hse, heqr⟩ := mem_expectedRoutes.mp hr
        rw [heqr] at heq
        simp only at heq
        rw [heq] at hs'
        rw [hs] at hs'
        exact Bool.true_eq_false.mp hs'
    · intro herr
      have hs : skipsUrl budget cfg.clientRetryBudgetThreshold b.1 = false := by
        simp [skipsUrl, skipDecision, herr]
      obtain ⟨se, hse⟩ := hrow
      exact ⟨{ url := b.1, streamEpochs := [se] },
        mem_expectedRoutes.mpr ⟨b, hb, hs, se, hse, rfl⟩, rfl⟩

/-- **C1, witness.** On the two concrete blocks of `wBlocks` — URL `"a"`
with ratio 2 above the threshold 1, URL `"b"` whose ratio read raises — the
resolver drops all rows of `"a"` and keeps the rows of `"b"`. -/
theorem resolver_skips_url_iff_budget_exceeded_witness :
    ((∀ r ∈ [({ url := "b", streamEpochs := [wEpoch] } : Route)], r.url ≠ "a") ↔
       skipsUrl wBudget wCfg.clientRetryBudgetThreshold "a" = true)
    ∧ (wBudget "b" = .error () →
       ∃ r ∈ [({ url := "b", streamEpochs := [wEpoch] } : Route)], r.url = "b") := by
  have h := @resolver_skips_url_iff_budget_exceeded wCfg wBudget wParse wDur wBlocks {"a", "b"}
    [{ url := "b", streamEpochs := [wEpoch] }] (by decide) (by decide)
  exact ⟨(h ("a", ["r1"]) (by decide) (by decide)).1,
         (h ("b", ["r2"]) (by decide) (by decide)).2⟩

/-! ## C2 — duration validation in `_emerge_routes` -/

/-- **C2.** For a well-formed routing response in which some non-skipped
stream epoch's duration exceeds `max_stream_epoch_duration`, or the
saturating running sum of non-skipped durations exceeds
`max_total_stream_epoch_duration` (`hasViolation` is exactly that
disjunction, evaluated row by row as `validate_stream_durations` is),
`_emerge_routes` raises the 413 FDSN error and returns no routes, and
`federate` therefore fails with status 413 before any endpoint request is
made. -/
theorem emerge_routes_duration_violation_413
    (blocks : List (String × List String)) (nodata : Nat)
    (hwf : ∀ b ∈ blocks, WellFormedBlock parse b)
    (hviol : hasViolation cfg dur 0
      (nonSkippedEpochs budget cfg.clientRetryBudgetThreshold parse blocks) = true) :
    emergeRoutes cfg budget parse dur (renderBlocks blocks) = .error .requestTooLarge
    ∧ federate cfg budget parse dur nodata (.response 200 (renderBlocks blocks)) =
        .error (.http 413) := by
  have hmaster := @emergeGo_blocks cfg budget parse dur blocks hwf initialEmergeState rfl rfl
  have h1 : emergeRoutes cfg budget parse dur (renderBlocks blocks) =
      .error .requestTooLarge := by
    have hviol' : hasViolation cfg dur initialEmergeState.totalStreamDuration
        (nonSkippedEpochs budget cfg.clientRetryBudgetThreshold parse blocks) = true := hviol
    rw [emergeRoutes_def, hmaster, if_pos hviol']
    rfl
  refine ⟨h1, ?_⟩
  simp [federate, routeHandleResponse, noContentCodes, h1]

/-- **C2, witness.** One block, URL `"c"` (ratio read raises, so included),
one row of duration 100 against a `max_stream_epoch_duration` of 10: the
resolver raises 413 and `federate` fails with 413. -/
theorem emerge_routes_duration_violation_413_witness :
    emergeRoutes wCfgMax wBudgetErr wParse wDur (renderBlocks wBlocksViolation) =
      .error .requestTooLarge
    ∧ federate wCfgMax wBudgetErr wParse wDur 204
        (.response 200 (renderBlocks wBlocksViolation)) = .error (.http 413) :=
  emerge_routes_duration_violation_413 wBlocksViolation 204 (by decide) (by decide)

/-! ## C10 — the returned URL set -/

/-- **C10.** For every routing text accepted by `_emerge_routes`, the
returned URL set is exactly the set of URLs whose block was terminated by a
blank (or empty) line — skipped URLs included, since the reference scanner
ignores the skip state; whenever the text ends with a newline (its final
split line strips to the empty string), the URL of every emitted route is a
member of that set; and `_gc_response_code_stats` garbage-collects the
retry-budget statistics of precisely the URLs in that set. -/
theorem emerge_routes_url_set (lines : List String) (urls : Finset String)
    (routes : List Route)
    (hok : emergeRoutes cfg budget parse dur lines = .ok (urls, routes)) :
    urls = terminatedUrls lines
    ∧ (∀ l, lines.getLast? = some l → pyStrip l = "" → ∀ r ∈ routes, r.url ∈ urls)
    ∧ gcUrls urls = terminatedUrls lines := by
  rw [emergeRoutes_def] at hok
  cases hgo : emergeGo cfg budget parse dur initialEmergeState lines with
  | error e => rw [hgo] at hok; simp [Except.map] at hok
  | ok st =>
    rw [hgo] at hok
    simp only [Except.map, Except.ok.injEq, Prod.mk.injEq] at hok
    obtain ⟨hurls, hroutes⟩ := hok
    subst hurls hroutes
    have hscan : st.urls = terminatedUrls lines := emergeGo_scanner hgo
    refine ⟨hscan, ?_, by rw [gcUrls, hscan]⟩
    intro l hl hb r hr
    have hfal : pyFalsy st.url = true := emergeGo_last_blank hgo hl hb
    rcases emergeGo_routes_in_urls hgo r hr with h0 | h0 | h0
    · simp [initialEmergeState] at h0
    · exact h0
    · have hempty : r.url = "" := by
        rw [h0] at hfal
        simpa [pyFalsy] using hfal
      have hne := emergeGo_routes_url_ne hgo (by simp [initialEmergeState]) r hr
      exact absurd hempty hne

/-- **C10, witness.** On the routing text `"a\nr1\n"` (lines
`["a", "r1", ""]`) with an always-raising budget read: the returned set is
`{"a"}`, the emitted route's URL is in it, and it is exactly what finalize
garbage-collects. -/
theorem emerge_routes_url_set_witness :
    ({"a"} : Finset String) = terminatedUrls wLines
    ∧ (∀ l, wLines.getLast? = some l → pyStrip l = "" →
        ∀ r ∈ [({ url := "a", streamEpochs := [wEpoch] } : Route)], r.url ∈ ({"a"} : Finset String))
    ∧ gcUrls {"a"} = terminatedUrls wLines :=
  @emerge_routes_url_set wCfg wBudgetErr wParse wDur
    wLines {"a"} [{ url := "a", streamEpochs := [wEpoch] }] (by decide)

/-! ## C6 — `federate` error mapping -/

/-- **C6.** If the routing service responds with a no-content code (204 or
404), `federate` fails with the request's nodata status; if it responds
with any other non-200 status, or the routing call raises
`aiohttp.ClientError` or `asyncio.TimeoutError`, `federate` fails with
status 500; and if routing succeeds (status 200) but `_emerge_routes`
yields an empty route list, `federate` fails with the nodata status. -/
theorem federate_error_mapping (nodata s : Nat) (lines : List String)
    (urls : Finset String) :
    federate cfg budget parse dur nodata .clientError = .error (.http 500)
    ∧ federate cfg budget parse dur nodata .timeoutError = .error (.http 500)
    ∧ (s = 204 ∨ s = 404 →
        federate cfg budget parse dur nodata (.response s lines) = .error (.http nodata))
    ∧ (s ≠ 200 → s ≠ 204 → s ≠ 404 →
        federate cfg budget parse dur nodata (.response s lines) = .error (.http 500))
    ∧ (emergeRoutes cfg budget parse dur lines = .ok (urls, []) →
        federate cfg budget parse dur nodata (.response 200 lines) =
          .error (.http nodata)) := by
  refine ⟨rfl, rfl, ?_, ?_, ?_⟩
  · rintro (h | h) <;> subst h <;> simp [federate, routeHandleResponse, noContentCodes]
  · intro h200 h204 h404
    have hnc : ¬(s ∈ noContentCodes) := by simp [noContentCodes, h204, h404]
    by_cases h4 : s ≥ 400
    · simp [federate, routeHandleResponse, hnc, h4]
    · simp [federate, routeHandleResponse, hnc, h4, h200]
  · intro hemerge
    simp [federate, routeHandleResponse, noContentCodes, hemerge]

/-- **C6, witness.** Concrete instantiations: a 404 routing answer yields
the nodata error (204 here), a 500 routing answer yields 500, and a 200
routing answer whose body is a single newline (no routes) yields nodata. -/
theorem federate_error_mapping_witness :
    federate wCfg wBudgetErr wParse wDur 204 (.response 404 [""]) = .error (.http 204)
    ∧ federate wCfg wBudgetErr wParse wDur 204 (.response 500 [""]) = .error (.http 500)
    ∧ federate wCfg wBudgetErr wParse wDur 204 (.response 200 [""]) = .error (.http 204) := by
  refine ⟨?_, ?_, ?_⟩
  · exact (@federate_error_mapping wCfg wBudgetErr wParse wDur
      204 404 [""] ∅).2.2.1 (Or.inr rfl)
  · exact (@federate_error_mapping wCfg wBudgetErr wParse wDur
      204 500 [""] ∅).2.2.2.1 (by decide) (by decide) (by decide)
  · exact (@federate_error_mapping wCfg wBudgetErr wParse wDur
      204 200 [""] ∅).2.2.2.2 (by decide)

/-! ## Lemmas on route grouping -/

theorem groupRoutesBy_append_singleton {κ : Type} [DecidableEq κ] (key : Route → κ)
    (l : List Route) (r : Route) :
    groupRoutesBy key (l ++ [r]) = addToGroup (groupRoutesBy key l) (key r) r := by
  simp [groupRoutesBy, List.foldl_append]

theorem addToGroup_not_mem {κ : Type} [DecidableEq κ] (acc : List (κ × List Route))
    (k : κ) (r : Route) (h : k ∉ acc.map Prod.fst) :
    addToGroup acc k r = acc ++ [(k, [r])] := by
  induction acc with
  | nil => rfl
  | cons p rest ih =>
    obtain ⟨k', rs⟩ := p
    have hk : k' ≠ k := by
      intro he
      exact h (by simp [he])
    rw [addToGroup, if_neg hk, ih (fun hm => h (List.mem_cons_of_mem _ hm))]
    simp

theorem addToGroup_mem {κ : Type} [DecidableEq κ] (acc : List (κ × List Route))
    (k : κ) (r : Route) (hnd : (acc.map Prod.fst).Nodup) (h : k ∈ acc.map Prod.fst) :
    addToGroup acc k r = acc.map fun p => if p.1 = k then (p.1, p.2 ++ [r]) else p := by
  induction acc with
  | nil => simp at h
  | cons p rest ih =>
    obtain ⟨k', rs⟩ := p
    have hnd' : (k' :: rest.map Prod.fst).Nodup := by
      rw [List.map_cons] at hnd
      exact hnd
    by_cases hk : k' = k
    · subst hk
      rw [addToGroup, if_pos rfl]
      have hnotin : ∀ p ∈ rest, p.1 ≠ k' := by
        intro q hq he
        have : k' ∈ rest.map Prod.fst := by
          rw [← he]
          exact List.mem_map_of_mem _ hq
        exact (List.nodup_cons.mp hnd').1 this
      have hrest : rest.map (fun p => if p.1 = k' then (p.1, p.2 ++ [r]) else p) = rest := by
        have : rest.map (fun p => if p.1 = k' then (p.1, p.2 ++ [r]) else p) =
            rest.map id := by
          apply List.map_congr_left
          intro q hq
          rw [if_neg (hnotin q hq)]
          rfl
        rw [this, List.map_id]
      simp [hrest]
    · have h' : k ∈ k' :: rest.map Prod.fst := by
        rw [List.map_cons] at h
        exact h
      have hmem : k ∈ rest.map Prod.fst := by
        rcases List.mem_cons.mp h' with he | hm
        · exact absurd he.symm hk
        · exact hm
      rw [addToGroup, if_neg hk, ih (List.nodup_cons.mp hnd').2 hmem]
      simp [hk]

/-- The characterization of `group_routes_by`: group keys are distinct,
every group is exactly the sub-list of routes carrying its key (so groups
are nonempty and ordered), every route's key is a group key, and every
group key comes from some route. -/
theorem groupRoutesBy_spec {κ : Type} [DecidableEq κ] (key : Route → κ)
    (routes : List Route) :
    ((groupRoutesBy key routes).map Prod.fst).Nodup
    ∧ (∀ p ∈ groupRoutesBy key routes,
        p.2 = routes.filter fun r' => decide (key r' = p.1))
    ∧ (∀ r ∈ routes, key r ∈ (groupRoutesBy key routes).map Prod.fst)
    ∧ (∀ k ∈ (groupRoutesBy key routes).map Prod.fst, ∃ r ∈ routes, key r = k) := by
  induction routes using List.reverseRecOn with
  | nil => simp [groupRoutesBy]
  | append_singleton l r ih =>
    obtain ⟨hnd, hfil, hcom, hkeys⟩ := ih
    rw [groupRoutesBy_append_singleton]
    by_cases hmem : key r ∈ (groupRoutesBy key l).map Prod.fst
    · rw [addToGroup_mem _ _ _ hnd hmem]
      have hkeyseq : ((groupRoutesBy key l).map
            (fun p => if p.1 = key r then (p.1, p.2 ++ [r]) else p)).map Prod.fst =
          (groupRoutesBy key l).map Prod.fst := by
        rw [List.map_map]
        apply List.map_congr_left
        intro p hp
        by_cases hpk : p.1 = key r
        · simp [hpk]
        · simp [hpk]
      refine ⟨by rw [hkeyseq]; exact hnd, ?_, ?_, ?_⟩
      · intro p hp
        rw [List.mem_map] at hp
        obtain ⟨q, hq, hqe⟩ := hp
        by_cases hqk : q.1 = key r
        · rw [if_pos hqk] at hqe
          subst hqe
          rw [List.filter_append]
          simp only
          rw [hfil q hq, hqk]
          simp
        · rw [if_neg hqk] at hqe
          subst hqe
          rw [List.filter_append]
          rw [hfil q hq]
          simp [Ne.symm hqk]
      · intro r' hr'
        rw [hkeyseq]
        rcases List.mem_append.mp hr' with h' | h'
        · exact hcom r' h'
        · rw [List.mem_singleton.mp h']
          exact hmem
      · intro k hk
        rw [hkeyseq] at hk
        obtain ⟨r', hr', he⟩ := hkeys k hk
        exact ⟨r', List.mem_append_left _ hr', he⟩
    · rw [addToGroup_not_mem _ _ _ hmem]
      have hknew : ((groupRoutesBy key l) ++ [(key r, [r])]).map Prod.fst =
          (groupRoutesBy key l).map Prod.fst ++ [key r] := by simp
      refine ⟨?_, ?_, ?_, ?_⟩
      · rw [hknew, List.nodup_append]
        exact ⟨hnd, List.nodup_singleton _, by
          intro a ha hb
          rw [List.mem_singleton.mp hb] at ha
          exact hmem ha⟩
      · intro p hp
        rcases List.mem_append.mp hp with h' | h'
        · have hne : key r ≠ p.1 := by
            intro he
            exact hmem (he ▸ List.mem_map_of_mem Prod.fst h')
          rw [List.filter_append, hfil p h']
          simp [hne]
        · rw [List.mem_singleton.mp h']
          simp only
          rw [List.filter_append]
          have h1 : l.filter (fun r' => decide (key r' = key r)) = [] := by
            rw [List.filter_eq_nil_iff]
            intro a ha hdec
            have : key a = key r := by simpa using hdec
            exact hmem (this ▸ hcom a ha)
          rw [h1]
          simp
      · intro r' hr'
        rw [hknew]
        rcases List.mem_append.mp hr' with h' | h'
        · exact List.mem_append_left _ (hcom r' h')
        · rw [List.mem_singleton.mp h']
          simp
      · intro k hk
        rw [hknew] at hk
        rcases List.mem_append.mp hk with h' | h'
        · obtain ⟨r', hr', he⟩ := hkeys k h'
          exact ⟨r', List.mem_append_left _ hr', he⟩
        · rw [List.mem_singleton.mp h']
          exact ⟨r, List.mem_append_right _ (List.mem_singleton_self r), rfl⟩

/-! ## Lemmas on the availability extent reduction -/

theorem foldlMin_spec (l : List Int) (t : Int) :
    (l.foldl min t ∈ t :: l) ∧ ∀ x ∈ t :: l, l.foldl min t ≤ x := by
  induction l generalizing t with
  | nil =>
    constructor
    · exact List.mem_cons_self _ _
    · intro x hx
      rw [List.mem_singleton.mp hx]
      exact le_refl _
  | cons a l ih =>
    obtain ⟨ihmem, ihle⟩ := ih (min t a)
    constructor
    · rw [List.foldl_cons]
      rcases List.mem_cons.mp ihmem with he | hm
      · rcases min_choice t a with hc | hc
        · rw [he, hc]; exact List.mem_cons_self _ _
        · rw [he, hc]; exact List.mem_cons_of_mem _ (List.mem_cons_self _ _)
      · exact List.mem_cons_of_mem _ (List.mem_cons_of_mem _ hm)
    · intro x hx
      rw [List.foldl_cons]
      rcases List.mem_cons.mp hx with he | hx'
      · subst he
        exact le_trans (ihle _ (List.mem_cons_self _ _)) (min_le_left _ _)
      · rcases List.mem_cons.mp hx' with he | hx''
        · subst he
          exact le_trans (ihle _ (List.mem_cons_self _ _)) (min_le_right _ _)
        · exact ihle x (List.mem_cons_of_mem _ hx'')

theorem foldlMax_spec (l : List Int) (t : Int) :
    (l.foldl max t ∈ t :: l) ∧ ∀ x ∈ t :: l, x ≤ l.foldl max t := by
  induction l generalizing t with
  | nil =>
    constructor
    · exact List.mem_cons_self _ _
    · intro x hx
      rw [List.mem_singleton.mp hx]
      exact le_refl _
  | cons a l ih =>
    obtain ⟨ihmem, ihle⟩ := ih (max t a)
    constructor
    · rw [List.foldl_cons]
      rcases List.mem_cons.mp ihmem with he | hm
      · rcases max_choice t a with hc | hc
        · rw [he, hc]; exact List.mem_cons_self _ _
        · rw [he, hc]; exact List.mem_cons_of_mem _ (List.mem_cons_self _ _)
      · exact List.mem_cons_of_mem _ (List.mem_cons_of_mem _ hm)
    · intro x hx
      rw [List.foldl_cons]
      rcases List.mem_cons.mp hx with he | hx'
      · subst he
        exact le_trans (le_max_left _ _) (ihle _ (List.mem_cons_self _ _))
      · rcases List.mem_cons.mp hx' with he | hx''
        · subst he
          exact le_trans (le_max_right _ _) (ihle _ (List.mem_cons_self _ _))
        · exact ihle x (List.mem_cons_of_mem _ hx'')

theorem listMin_spec {l : List Int} (h : l ≠ []) :
    ∃ m, listMin l = some m ∧ m ∈ l ∧ ∀ x ∈ l, m ≤ x := by
  cases l with
  | nil => exact absurd rfl h
  | cons t ts => exact ⟨ts.foldl min t, rfl, (foldlMin_spec ts t).1, (foldlMin_spec ts t).2⟩

theorem listMax_spec {l : List Int} (h : l ≠ []) :
    ∃ m, listMax l = some m ∧ m ∈ l ∧ ∀ x ∈ l, x ≤ m := by
  cases l with
  | nil => exact absurd rfl h
  | cons t ts => exact ⟨ts.foldl max t, rfl, (foldlMax_spec ts t).1, (foldlMax_spec ts t).2⟩

theorem listMin_eq_of {l₁ l₂ : List Int} (hne₁ : l₁ ≠ []) (hne₂ : l₂ ≠ [])
    (h₁ : ∀ x ∈ l₁, ∃ y ∈ l₂, y ≤ x) (h₂ : ∀ y ∈ l₂, ∃ x ∈ l₁, x ≤ y) :
    listMin l₁ = listMin l₂ := by
  obtain ⟨m₁, he₁, hm₁, hle₁⟩ := listMin_spec hne₁
  obtain ⟨m₂, he₂, hm₂, hle₂⟩ := listMin_spec hne₂
  rw [he₁, he₂]
  obtain ⟨y, hy, hyle⟩ := h₁ m₁ hm₁
  obtain ⟨x, hx, hxle⟩ := h₂ m₂ hm₂
  exact congrArg some (le_antisymm (le_trans (hle₁ x hx) hxle) (le_trans (hle₂ y hy) hyle))

theorem listMax_eq_of {l₁ l₂ : List Int} (hne₁ : l₁ ≠ []) (hne₂ : l₂ ≠ [])
    (h₁ : ∀ x ∈ l₁, ∃ y ∈ l₂, x ≤ y) (h₂ : ∀ y ∈ l₂, ∃ x ∈ l₁, y ≤ x) :
    listMax l₁ = listMax l₂ := by
  obtain ⟨m₁, he₁, hm₁, hle₁⟩ := listMax_spec hne₁
  obtain ⟨m₂, he₂, hm₂, hle₂⟩ := listMax_spec hne₂
  rw [he₁, he₂]
  obtain ⟨y, hy, hyle⟩ := h₁ m₁ hm₁
  obtain ⟨x, hx, hxle⟩ := h₂ m₂ hm₂
  exact congrArg some (le_antisymm (le_trans hyle (hle₂ y hy)) (le_trans hxle (hle₁ x hx)))

theorem mem_groupTs {rs : List Route} {x : Int} :
    x ∈ groupTs rs ↔
      ∃ r ∈ rs, ∃ se ∈ r.streamEpochs, x = se.starttime ∨ x = noneAsMax se.endtime := by
  simp only [groupTs, List.mem_flatMap, List.mem_cons, List.mem_singleton,
    List.not_mem_nil, or_false]

theorem mem_groupStarts {rs : List Route} {x : Int} :
    x ∈ groupStarts rs ↔ ∃ r ∈ rs, ∃ se ∈ r.streamEpochs, x = se.starttime := by
  simp only [groupStarts, List.mem_flatMap, List.mem_map]
  constructor
  · rintro ⟨r, hr, se, hse, h⟩
    exact ⟨r, hr, se, hse, h.symm⟩
  · rintro ⟨r, hr, se, hse, h⟩
    exact ⟨r, hr, se, hse, h.symm⟩

theorem mem_groupEnds {rs : List Route} {x : Int} :
    x ∈ groupEnds rs ↔ ∃ r ∈ rs, ∃ se ∈ r.streamEpochs, x = noneAsMax se.endtime := by
  simp only [groupEnds, List.mem_flatMap, List.mem_map]
  constructor
  · rintro ⟨r, hr, se, hse, h⟩
    exact ⟨r, hr, se, hse, h.symm⟩
  · rintro ⟨r, hr, se, hse, h⟩
    exact ⟨r, hr, se, hse, h.symm⟩

theorem mem_urlsFoldl {rs : List Route} {init : Finset String} {x : String} :
    x ∈ rs.foldl (fun s (r : Route) => insert r.url s) init ↔ x ∈ init ∨ ∃ r ∈ rs, r.url = x := by
  induction rs generalizing init with
  | nil => simp
  | cons r rest ih =>
    rw [List.foldl_cons, ih]
    simp only [Finset.mem_insert, List.mem_cons]
    constructor
    · rintro (⟨he | hi⟩ | ⟨r', hr', he⟩)
      · exact Or.inr ⟨r, Or.inl rfl, he.symm⟩
      · exact Or.inl hi
      · exact Or.inr ⟨r', Or.inr hr', he⟩
    · rintro (hi | ⟨r', hr' | hr', he⟩)
      · exact Or.inl (Or.inr hi)
      · exact Or.inl (Or.inl (by rw [hr'] at he; exact he.symm))
      · exact Or.inr ⟨r', hr', he⟩

theorem reduceGroup_unfold (rs : List Route) (rlast : Route) (selast : StreamEpoch)
    (t : Int) (ts' : List Int)
    (hall : (rs.all fun r => r.streamEpochs.length == 1) = true)
    (hlast : rs.getLast? = some rlast)
    (hhead : rlast.streamEpochs.head? = some selast)
    (hts : groupTs rs = t :: ts') :
    reduceGroup rs =
      (if (rs.foldl (fun s (r : Route) => insert r.url s) (∅ : Finset String)).card ≠ 1 then .error .valueError
       else .ok { url := rlast.url,
                  streamEpochs := [{ stream := selast.stream,
                                     starttime := ts'.foldl min t,
                                     endtime := maxAsNone (ts'.foldl max t) }] }) := by
  have hts' : (rs.flatMap fun r =>
      r.streamEpochs.flatMap fun se => [se.starttime, noneAsMax se.endtime]) = t :: ts' := hts
  simp only [reduceGroup, hall, Bool.true_eq_false, if_false, hlast, hhead, hts']

theorem urlsFoldl_card_one {rs : List Route} (hne : rs ≠ [])
    (huni : ∀ r ∈ rs, ∀ r' ∈ rs, r.url = r'.url) :
    (rs.foldl (fun s (r : Route) => insert r.url s) (∅ : Finset String)).card = 1 := by
  obtain ⟨r0, hr0⟩ := List.exists_mem_of_ne_nil rs hne
  have hset : rs.foldl (fun s (r : Route) => insert r.url s) (∅ : Finset String) =
      {r0.url} := by
    apply Finset.ext
    intro x
    rw [mem_urlsFoldl, Finset.mem_singleton]
    constructor
    · rintro (hx | ⟨r, hr, he⟩)
      · simp at hx
      · rw [← he]
        exact huni r hr r0 hr0
    · intro he
      exact Or.inr ⟨r0, hr0, he.symm⟩
  rw [hset]
  exact Finset.card_singleton _

theorem reduceGroup_ok (rs : List Route)
    (hgran : ∀ r ∈ rs, r.streamEpochs.length = 1) (hne : rs ≠ [])
    (horder : ∀ r ∈ rs, ∀ se ∈ r.streamEpochs, se.starttime ≤ noneAsMax se.endtime)
    (huni : ∀ r ∈ rs, ∀ r' ∈ rs, r.url = r'.url) :
    ∃ route se m M, reduceGroup rs = .ok route
      ∧ route.streamEpochs = [se]
      ∧ (∃ rlast, rs.getLast? = some rlast ∧ route.url = rlast.url ∧
           ∃ sl ∈ rlast.streamEpochs, se.stream = sl.stream)
      ∧ listMin (groupStarts rs) = some m ∧ se.starttime = m
      ∧ listMax (groupEnds rs) = some M ∧ se.endtime = maxAsNone M := by
  have hall : (rs.all fun r => r.streamEpochs.length == 1) = true := by
    rw [List.all_eq_true]
    intro r hr
    simp [hgran r hr]
  obtain ⟨rlast, hlast⟩ : ∃ rlast, rs.getLast? = some rlast := by
    cases h : rs.getLast? with
    | none => exact absurd (List.getLast?_eq_none_iff.mp h) hne
    | some rlast => exact ⟨rlast, rfl⟩
  have hlmem : rlast ∈ rs := List.mem_of_getLast?_eq_some hlast
  obtain ⟨selast, hsel⟩ := List.length_eq_one.mp (hgran rlast hlmem)
  have hhead : rlast.streamEpochs.head? = some selast := by rw [hsel]; rfl
  have hselmem : selast ∈ rlast.streamEpochs := by rw [hsel]; exact List.mem_singleton_self _
  have htsmem : selast.starttime ∈ groupTs rs :=
    mem_groupTs.mpr ⟨rlast, hlmem, selast, hselmem, Or.inl rfl⟩
  obtain ⟨t, ts', hts⟩ : ∃ t ts', groupTs rs = t :: ts' := by
    cases h : groupTs rs with
    | nil => rw [h] at htsmem; simp at htsmem
    | cons t ts' => exact ⟨t, ts', rfl⟩
  rw [reduceGroup_unfold rs rlast selast t ts' hall hlast hhead hts]
  rw [if_neg (by rw [urlsFoldl_card_one hne huni]; exact fun h => h rfl)]
  have hstartsne : groupStarts rs ≠ [] :=
    List.ne_nil_of_mem (mem_groupStarts.mpr ⟨rlast, hlmem, selast, hselmem, rfl⟩)
  have hendsne : groupEnds rs ≠ [] :=
    List.ne_nil_of_mem (mem_groupEnds.mpr ⟨rlast, hlmem, selast, hselmem, rfl⟩)
  have htsne : groupTs rs ≠ [] := List.ne_nil_of_mem htsmem
  have hminq : listMin (groupTs rs) = listMin (groupStarts rs) := by
    apply listMin_eq_of htsne hstartsne
    · intro x hx
      obtain ⟨r, hr, se, hse, hcase⟩ := mem_groupTs.mp hx
      rcases hcase with he | he
      · exact ⟨x, mem_groupStarts.mpr ⟨r, hr, se, hse, he⟩, le_refl x⟩
      · exact ⟨se.starttime, mem_groupStarts.mpr ⟨r, hr, se, hse, rfl⟩,
          he ▸ horder r hr se hse⟩
    · intro y hy
      obtain ⟨r, hr, se, hse, he⟩ := mem_groupStarts.mp hy
      exact ⟨y, mem_groupTs.mpr ⟨r, hr, se, hse, Or.inl he⟩, le_refl y⟩
  have hmaxq : listMax (groupTs rs) = listMax (groupEnds rs) := by
    apply listMax_eq_of htsne hendsne
    · intro x hx
      obtain ⟨r, hr, se, hse, hcase⟩ := mem_groupTs.mp hx
      rcases hcase with he | he
      · exact ⟨noneAsMax se.endtime, mem_groupEnds.mpr ⟨r, hr, se, hse, rfl⟩,
          he ▸ horder r hr se hse⟩
      · exact ⟨x, mem_groupEnds.mpr ⟨r, hr, se, hse, he⟩, le_refl x⟩
    · intro y hy
      obtain ⟨r, hr, se, hse, he⟩ := mem_groupEnds.mp hy
      exact ⟨y, mem_groupTs.mpr ⟨r, hr, se, hse, Or.inr he⟩, le_refl y⟩
  have hminval : listMin (groupTs rs) = some (ts'.foldl min t) := by rw [hts]; rfl
  have hmaxval : listMax (groupTs rs) = some (ts'.foldl max t) := by rw [hts]; rfl
  refine ⟨_, _, ts'.foldl min t, ts'.foldl max t, rfl, rfl,
    ⟨rlast, hlast, rfl, selast, hselmem, rfl⟩, ?_, rfl, ?_, rfl⟩
  · rw [← hminq, hminval]
  · rw [← hmaxq, hmaxval]

theorem reduceGroup_multi (rs : List Route)
    (hgran : ∀ r ∈ rs, r.streamEpochs.length = 1)
    {r₁ r₂ : Route} (hr₁ : r₁ ∈ rs) (hr₂ : r₂ ∈ rs) (hurl : r₁.url ≠ r₂.url) :
    reduceGroup rs = .error .valueError := by
  have hne : rs ≠ [] := List.ne_nil_of_mem hr₁
  have hall : (rs.all fun r => r.streamEpochs.length == 1) = true := by
    rw [List.all_eq_true]
    intro r hr
    simp [hgran r hr]
  obtain ⟨rlast, hlast⟩ : ∃ rlast, rs.getLast? = some rlast := by
    cases h : rs.getLast? with
    | none => exact absurd (List.getLast?_eq_none_iff.mp h) hne
    | some rlast => exact ⟨rlast, rfl⟩
  have hlmem : rlast ∈ rs := List.mem_of_getLast?_eq_some hlast
  obtain ⟨selast, hsel⟩ := List.length_eq_one.mp (hgran rlast hlmem)
  have hhead : rlast.streamEpochs.head? = some selast := by rw [hsel]; rfl
  have hselmem : selast ∈ rlast.streamEpochs := by rw [hsel]; exact List.mem_singleton_self _
  have htsmem : selast.starttime ∈ groupTs rs :=
    mem_groupTs.mpr ⟨rlast, hlmem, selast, hselmem, Or.inl rfl⟩
  obtain ⟨t, ts', hts⟩ : ∃ t ts', groupTs rs = t :: ts' := by
    cases h : groupTs rs with
    | nil => rw [h] at htsmem; simp at htsmem
    | cons t ts' => exact ⟨t, ts', rfl⟩
  rw [reduceGroup_unfold rs rlast selast t ts' hall hlast hhead hts]
  rw [if_pos]
  intro hcard
  have hlt : 1 < (rs.foldl (fun s (r : Route) => insert r.url s) (∅ : Finset String)).card := by
    rw [Finset.one_lt_card]
    exact ⟨r₁.url, mem_urlsFoldl.mpr (Or.inr ⟨r₁, hr₁, rfl⟩),
           r₂.url, mem_urlsFoldl.mpr (Or.inr ⟨r₂, hr₂, rfl⟩), hurl⟩
  omega

theorem reduceGroup_ok_or_value (rs : List Route)
    (hgran : ∀ r ∈ rs, r.streamEpochs.length = 1) (hne : rs ≠ []) :
    (∃ route, reduceGroup rs = .ok route) ∨ reduceGroup rs = .error .valueError := by
  have hall : (rs.all fun r => r.streamEpochs.length == 1) = true := by
    rw [List.all_eq_true]
    intro r hr
    simp [hgran r hr]
  obtain ⟨rlast, hlast⟩ : ∃ rlast, rs.getLast? = some rlast := by
    cases h : rs.getLast? with
    | none => exact absurd (List.getLast?_eq_none_iff.mp h) hne
    | some rlast => exact ⟨rlast, rfl⟩
  have hlmem : rlast ∈ rs := List.mem_of_getLast?_eq_some hlast
  obtain ⟨selast, hsel⟩ := List.length_eq_one.mp (hgran rlast hlmem)
  have hhead : rlast.streamEpochs.head? = some selast := by rw [hsel]; rfl
  have hselmem : selast ∈ rlast.streamEpochs := by rw [hsel]; exact List.mem_singleton_self _
  have htsmem : selast.starttime ∈ groupTs rs :=
    mem_groupTs.mpr ⟨rlast, hlmem, selast, hselmem, Or.inl rfl⟩
  obtain ⟨t, ts', hts⟩ : ∃ t ts', groupTs rs = t :: ts' := by
    cases h : groupTs rs with
    | nil => rw [h] at htsmem; simp at htsmem
    | cons t ts' => exact ⟨t, ts', rfl⟩
  rw [reduceGroup_unfold rs rlast selast t ts' hall hlast hhead hts]
  by_cases hcard : (rs.foldl (fun s (r : Route) => insert r.url s) (∅ : Finset String)).card ≠ 1
  · rw [if_pos hcard]
    exact Or.inr rfl
  · rw [if_neg hcard]
    exact Or.inl ⟨_, rfl⟩

theorem reduceToExtentGo_ok_or_value (groups : List (SnclStream × List Route))
    (h : ∀ p ∈ groups,
      (∃ route, reduceGroup p.2 = .ok route) ∨ reduceGroup p.2 = .error .valueError) :
    (∃ l, reduceToExtentGo groups = .ok l) ∨ reduceToExtentGo groups = .error .valueError := by
  induction groups with
  | nil => exact Or.inl ⟨[], rfl⟩
  | cons p rest ih =>
    obtain ⟨k, rs⟩ := p
    rcases h (k, rs) (List.mem_cons_self _ _) with ⟨route, hok⟩ | herr
    · rcases ih (fun q hq => h q (List.mem_cons_of_mem _ hq)) with ⟨l, hok'⟩ | herr'
      · exact Or.inl ⟨route :: l, by rw [reduceToExtentGo, hok, hok']⟩
      · exact Or.inr (by rw [reduceToExtentGo, hok, herr'])
    · exact Or.inr (by rw [reduceToExtentGo, herr])

theorem reduceToExtentGo_error (groups : List (SnclStream × List Route))
    (h : ∀ p ∈ groups,
      (∃ route, reduceGroup p.2 = .ok route) ∨ reduceGroup p.2 = .error .valueError)
    (hex : ∃ p ∈ groups, reduceGroup p.2 = .error .valueError) :
    reduceToExtentGo groups = .error .valueError := by
  induction groups with
  | nil => simp at hex
  | cons p rest ih =>
    obtain ⟨k, rs⟩ := p
    rcases h (k, rs) (List.mem_cons_self _ _) with ⟨route, hok⟩ | herr
    · obtain ⟨q, hq, hqerr⟩ := hex
      rcases List.mem_cons.mp hq with he | hm
      · rw [he] at hqerr
        rw [hqerr] at hok
        simp at hok
      · rw [reduceToExtentGo, hok,
          ih (fun q' hq' => h q' (List.mem_cons_of_mem _ hq')) ⟨q, hm, hqerr⟩]
    · rw [reduceToExtentGo, herr]

theorem reduceToExtentGo_forall (groups : List (SnclStream × List Route))
    (h : ∀ p ∈ groups, ∃ route, reduceGroup p.2 = .ok route) :
    ∃ reduced, reduceToExtentGo groups = .ok reduced
      ∧ List.Forall₂ (fun p route => reduceGroup p.2 = .ok route) groups reduced := by
  induction groups with
  | nil => exact ⟨[], rfl, List.Forall₂.nil⟩
  | cons p rest ih =>
    obtain ⟨route, hok⟩ := h p (List.mem_cons_self _ _)
    obtain ⟨reduced, hok', hfa⟩ := ih fun q hq => h q (List.mem_cons_of_mem _ hq)
    refine ⟨route :: reduced, ?_, List.Forall₂.cons hok hfa⟩
    obtain ⟨k, rs⟩ := p
    rw [reduceToExtentGo, hok, hok']

theorem groupRoutesBy_group_sub {κ : Type} [DecidableEq κ] {key : Route → κ}
    {routes : List Route} {p : κ × List Route} (hp : p ∈ groupRoutesBy key routes) :
    (∀ r ∈ p.2, r ∈ routes ∧ key r = p.1) ∧ p.2 ≠ [] := by
  obtain ⟨-, hfil, -, hkeys⟩ := groupRoutesBy_spec key routes
  constructor
  · intro r hr
    rw [hfil p hp] at hr
    obtain ⟨hmem, hdec⟩ := List.mem_filter.mp hr
    exact ⟨hmem, by simpa using hdec⟩
  · obtain ⟨r, hrmem, hrk⟩ := hkeys p.1 (List.mem_map_of_mem Prod.fst hp)
    apply List.ne_nil_of_mem (a := r)
    rw [hfil p hp]
    exact List.mem_filter.mpr ⟨hrmem, by simpa using hrk⟩

theorem reduceToExtent_ok_or_value (rs : List Route)
    (hgran : ∀ r ∈ rs, r.streamEpochs.length = 1) :
    (∃ l, reduceToExtent rs = .ok l) ∨ reduceToExtent rs = .error .valueError := by
  apply reduceToExtentGo_ok_or_value
  intro p hp
  obtain ⟨hsub, hne⟩ := groupRoutesBy_group_sub hp
  exact reduceGroup_ok_or_value p.2 (fun r hr => hgran r (hsub r hr).1) hne

theorem keyNetwork_eq_nslc_network (r : Route) : keyNetwork r = (keyNSLC r).network := by
  rw [keyNetwork, keyNSLC]
  cases r.streamEpochs with
  | nil => rfl
  | cons se rest => rfl

theorem reduceToExtent_multi (rs : List Route)
    (hgran : ∀ r ∈ rs, r.streamEpochs.length = 1)
    {p : SnclStream × List Route} (hp : p ∈ groupRoutesBy keyNSLC rs)
    {r₁ r₂ : Route} (hr₁ : r₁ ∈ p.2) (hr₂ : r₂ ∈ p.2) (hurl : r₁.url ≠ r₂.url) :
    reduceToExtent rs = .error .valueError := by
  apply reduceToExtentGo_error
  · intro q hq
    obtain ⟨hsub, hne⟩ := groupRoutesBy_group_sub hq
    exact reduceGroup_ok_or_value q.2 (fun r hr => hgran r (hsub r hr).1) hne
  · obtain ⟨hsub, -⟩ := groupRoutesBy_group_sub hp
    exact ⟨p, hp,
      reduceGroup_multi p.2 (fun r hr => hgran r (hsub r hr).1) hr₁ hr₂ hurl⟩

theorem dispatchReduce_error (nodata : Nat) (grouped : List (String × List Route))
    (h : ∀ q ∈ grouped,
      (∃ l, reduceToExtent q.2 = .ok l) ∨ reduceToExtent q.2 = .error .valueError)
    (hex : ∃ q ∈ grouped, reduceToExtent q.2 = .error .valueError) :
    dispatchReduce nodata grouped = .error (.http nodata) := by
  induction grouped with
  | nil => simp at hex
  | cons q rest ih =>
    obtain ⟨net, rs⟩ := q
    rcases h (net, rs) (List.mem_cons_self _ _) with ⟨l, hok⟩ | herr
    · obtain ⟨q', hq', hq'err⟩ := hex
      rcases List.mem_cons.mp hq' with he | hm
      · rw [he] at hq'err
        rw [hq'err] at hok
        simp at hok
      · rw [dispatchReduce, hok,
          ih (fun q'' hq'' => h q'' (List.mem_cons_of_mem _ hq'')) ⟨q', hm, hq'err⟩]
    · rw [dispatchReduce, herr]

theorem dispatchReduce_forall (nodata : Nat) (grouped : List (String × List Route))
    (h : ∀ q ∈ grouped, ∃ l, reduceToExtent q.2 = .ok l) :
    ∃ out, dispatchReduce nodata grouped = .ok out
      ∧ out.map Prod.fst = grouped.map Prod.fst := by
  induction grouped with
  | nil => exact ⟨[], rfl, rfl⟩
  | cons q rest ih =>
    obtain ⟨net, rs⟩ := q
    obtain ⟨l, hok⟩ := h (net, rs) (List.mem_cons_self _ _)
    obtain ⟨out, hout, hkeys⟩ := ih fun q' hq' => h q' (List.mem_cons_of_mem _ hq')
    refine ⟨(net, l) :: out, ?_, by simp [hkeys]⟩
    rw [dispatchReduce, hok, hout]

theorem dispatchReduce_ok_keys (nodata : Nat) (grouped out : List (String × List Route))
    (h : dispatchReduce nodata grouped = .ok out) :
    out.map Prod.fst = grouped.map Prod.fst := by
  induction grouped generalizing out with
  | nil =>
    rw [dispatchReduce] at h
    injection h with h
    subst h
    rfl
  | cons q rest ih =>
    obtain ⟨net, rs⟩ := q
    rw [dispatchReduce] at h
    cases hred : reduceToExtent rs with
    | error e =>
      rw [hred] at h
      cases e <;> simp at h
    | ok l =>
      rw [hred] at h
      cases hrest : dispatchReduce nodata rest with
      | error e => rw [hrest] at h; simp at h
      | ok out' =>
        rw [hrest] at h
        injection h with h
        subst h
        simp [ih out' hrest]

theorem reduceToExtentGo_forall₂ (Q : (SnclStream × List Route) → Route → Prop)
    (groups : List (SnclStream × List Route))
    (h : ∀ p ∈ groups, ∃ route, reduceGroup p.2 = .ok route ∧ Q p route) :
    ∃ reduced, reduceToExtentGo groups = .ok reduced ∧ List.Forall₂ Q groups reduced := by
  induction groups with
  | nil => exact ⟨[], rfl, List.Forall₂.nil⟩
  | cons p rest ih =>
    obtain ⟨route, hok, hq⟩ := h p (List.mem_cons_self _ _)
    obtain ⟨reduced, hok', hfa⟩ := ih fun q hq' => h q (List.mem_cons_of_mem _ hq')
    refine ⟨route :: reduced, ?_, List.Forall₂.cons hq hfa⟩
    obtain ⟨k, rs⟩ := p
    rw [reduceToExtentGo, hok, hok']

/-! ## C7 — availability extent reduction -/

/-- **C7.** Before dispatch, the availability processor replaces every
group of routes sharing the same `network.station.location.channel` with a
single route whose stream epoch runs from the minimum starttime over the
group to the maximum endtime, an open endtime treated as
`datetime.datetime.max` and mapped back to an open endtime when it is the
maximum; and if any such group's routes span more than one endpoint URL,
`_dispatch` fails with the request's nodata status. -/
theorem availability_extent_reduction (routes : List Route) (nodata : Nat)
    (hgran : ∀ r ∈ routes, r.streamEpochs.length = 1)
    (horder : ∀ r ∈ routes, ∀ se ∈ r.streamEpochs, se.starttime ≤ noneAsMax se.endtime) :
    ((∀ p ∈ groupRoutesBy keyNSLC routes, ∀ r ∈ p.2, ∀ r' ∈ p.2, r.url = r'.url) →
      ∃ reduced, reduceToExtent routes = .ok reduced
        ∧ List.Forall₂ (fun (p : SnclStream × List Route) (route : Route) =>
            ∃ se m M, route.streamEpochs = [se] ∧ se.stream = p.1
              ∧ listMin (groupStarts p.2) = some m ∧ se.starttime = m
              ∧ listMax (groupEnds p.2) = some M ∧ se.endtime = maxAsNone M)
            (groupRoutesBy keyNSLC routes) reduced)
    ∧ ((∃ p ∈ groupRoutesBy keyNSLC routes, ∃ r ∈ p.2, ∃ r' ∈ p.2, r.url ≠ r'.url) →
        dispatchAvailability nodata routes = .error (.http nodata)) := by
  constructor
  · intro huni
    apply reduceToExtentGo_forall₂
    intro p hp
    obtain ⟨hsub, hne⟩ := groupRoutesBy_group_sub hp
    obtain ⟨route, se, m, M, hok, hse,
      ⟨rlast, hlast, hru, sl, hslmem, hstream⟩, hm1, hm2, hM1, hM2⟩ :=
      reduceGroup_ok p.2 (fun r hr => hgran r (hsub r hr).1) hne
        (fun r hr se' hse' => horder r (hsub r hr).1 se' hse')
        (huni p hp)
    have hlmem : rlast ∈ p.2 := List.mem_of_getLast?_eq_some hlast
    obtain ⟨sl', hsl'⟩ := List.length_eq_one.mp (hgran rlast (hsub rlast hlmem).1)
    have hkey : keyNSLC rlast = p.1 := (hsub rlast hlmem).2
    have hsl_eq : sl = sl' := by
      rw [hsl'] at hslmem
      exact List.mem_singleton.mp hslmem
    have hstream_key : sl.stream = p.1 := by
      rw [hsl_eq, ← hkey]
      simp [keyNSLC, hsl']
    exact ⟨route, hok, se, m, M, hse, by rw [hstream, hstream_key], hm1, hm2, hM1, hM2⟩
  · rintro ⟨p, hp, r₁, hr₁, r₂, hr₂, hurl⟩
    obtain ⟨hndN, hfilN, hcomN, hkeysN⟩ := groupRoutesBy_spec keyNetwork routes
    have hr₁mem : r₁ ∈ routes ∧ keyNSLC r₁ = p.1 := (groupRoutesBy_group_sub hp).1 r₁ hr₁
    have hkn : keyNetwork r₁ = p.1.network := by
      rw [keyNetwork_eq_nslc_network, hr₁mem.2]
    have hnmem : p.1.network ∈ (groupRoutesBy keyNetwork routes).map Prod.fst :=
      hkn ▸ hcomN r₁ hr₁mem.1
    obtain ⟨q, hq, hq1⟩ := List.mem_map.mp hnmem
    have hq2 : q.2 = routes.filter fun r => decide (keyNetwork r = q.1) := hfilN q hq
    have hr₁q : r₁ ∈ q.2 := by
      rw [hq2]
      exact List.mem_filter.mpr ⟨hr₁mem.1, by simp [hkn, hq1]⟩
    obtain ⟨hndS', hfilS', hcomS', hkeysS'⟩ := groupRoutesBy_spec keyNSLC q.2
    have hsmem : p.1 ∈ (groupRoutesBy keyNSLC q.2).map Prod.fst :=
      hr₁mem.2 ▸ hcomS' r₁ hr₁q
    obtain ⟨p', hp', hp'1⟩ := List.mem_map.mp hsmem
    have hpp : p'.2 = p.2 := by
      rw [hfilS' p' hp', hq2, List.filter_filter,
        (groupRoutesBy_spec keyNSLC routes).2.1 p hp]
      apply List.filter_congr
      intro r hr
      rw [hp'1]
      by_cases hk : keyNSLC r = p.1
      · have hk2 : keyNetwork r = q.1 := by
          rw [keyNetwork_eq_nslc_network, hk, hq1]
        simp [hk, hk2]
      · simp [hk]
    have hgranq : ∀ r ∈ q.2, r.streamEpochs.length = 1 := by
      intro r hr
      rw [hq2] at hr
      exact hgran r (List.mem_filter.mp hr).1
    have herr : reduceToExtent q.2 = .error .valueError :=
      reduceToExtent_multi q.2 hgranq hp' (by rw [hpp]; exact hr₁) (by rw [hpp]; exact hr₂)
        hurl
    have hall : ∀ q' ∈ groupRoutesBy keyNetwork routes,
        (∃ l, reduceToExtent q'.2 = .ok l) ∨ reduceToExtent q'.2 = .error .valueError := by
      intro q' hq'
      apply reduceToExtent_ok_or_value
      intro r hr
      exact hgran r ((groupRoutesBy_group_sub hq').1 r hr).1
    have hdr := dispatchReduce_error nodata _ hall ⟨q, hq, herr⟩
    rw [dispatchAvailability, hdr]

/-- **C7, witness.** Two routes of the same stream on the same endpoint
(epochs `0..10` and `5..open`) reduce to the single extent `0..open`; two
routes of the same stream on different endpoints make dispatch fail with
nodata (204). -/
theorem availability_extent_reduction_witness :
    (∃ reduced, reduceToExtent [wRouteA, wRouteA2] = .ok reduced
      ∧ List.Forall₂ (fun (p : SnclStream × List Route) (route : Route) =>
          ∃ se m M, route.streamEpochs = [se] ∧ se.stream = p.1
            ∧ listMin (groupStarts p.2) = some m ∧ se.starttime = m
            ∧ listMax (groupEnds p.2) = some M ∧ se.endtime = maxAsNone M)
          (groupRoutesBy keyNSLC [wRouteA, wRouteA2]) reduced)
    ∧ dispatchAvailability 204 [wRouteA, wRouteAz] = .error (.http 204) :=
  ⟨(availability_extent_reduction [wRouteA, wRouteA2] 204 (by decide) (by decide)).1
      (by decide),
   (availability_extent_reduction [wRouteA, wRouteAz] 204 (by decide) (by decide)).2
      (by decide)⟩

theorem charToNat_inj {a b : Char} (h : a.toNat = b.toNat) : a = b := by
  have h2 := congrArg Char.ofNat h
  rwa [Char.ofNat_toNat, Char.ofNat_toNat] at h2

theorem charListLe_total : ∀ xs ys : List Char, charListLe xs ys = true ∨ charListLe ys xs = true
  | [], _ => Or.inl rfl
  | _ :: _, [] => Or.inr rfl
  | x :: xs, y :: ys => by
    by_cases h1 : x.toNat < y.toNat
    · exact Or.inl (by simp [charListLe, h1])
    · by_cases h2 : y.toNat < x.toNat
      · exact Or.inr (by simp [charListLe, h2])
      · rcases charListLe_total xs ys with h | h
        · exact Or.inl (by simp [charListLe, h1, h2, h])
        · exact Or.inr (by simp [charListLe, h1, h2, h])

theorem charListLe_trans : ∀ xs ys zs : List Char, charListLe xs ys = true →
    charListLe ys zs = true → charListLe xs zs = true
  | [], _, _, _, _ => rfl
  | _ :: _, [], _, h1, _ => by simp [charListLe] at h1
  | _ :: _, _ :: _, [], _, h2 => by simp [charListLe] at h2
  | x :: xs, y :: ys, z :: zs, h1, h2 => by
    simp only [charListLe] at h1 h2 ⊢
    by_cases hxy : x.toNat < y.toNat
    · by_cases hyz : y.toNat < z.toNat
      · simp [Nat.lt_trans hxy hyz]
      · by_cases hzy : z.toNat < y.toNat
        · rw [if_neg hyz, if_pos hzy] at h2
          exact absurd h2 (by simp)
        · have hxz : x.toNat < z.toNat := by omega
          simp [hxz]
    · by_cases hyx : y.toNat < x.toNat
      · rw [if_neg hxy, if_pos hyx] at h1
        exact absurd h1 (by simp)
      · rw [if_neg hxy, if_neg hyx] at h1
        by_cases hyz : y.toNat < z.toNat
        · have hxz : x.toNat < z.toNat := by omega
          simp [hxz]
        · by_cases hzy : z.toNat < y.toNat
          · rw [if_neg hyz, if_pos hzy] at h2
            exact absurd h2 (by simp)
          · rw [if_neg hyz, if_neg hzy] at h2
            have hxz : ¬x.toNat < z.toNat := by omega
            have hzx : ¬z.toNat < x.toNat := by omega
            rw [if_neg hxz, if_neg hzx]
            exact charListLe_trans xs ys zs h1 h2

theorem charListLt_of_le_of_ne : ∀ xs ys : List Char, charListLe xs ys = true →
    xs ≠ ys → charListLt xs ys = true
  | [], [], _, hne => absurd rfl hne
  | [], _ :: _, _, _ => rfl
  | _ :: _, [], h, _ => by simp [charListLe] at h
  | x :: xs, y :: ys, h, hne => by
    simp only [charListLe] at h
    simp only [charListLt]
    by_cases hxy : x.toNat < y.toNat
    · simp [hxy]
    · by_cases hyx : y.toNat < x.toNat
      · rw [if_neg hxy, if_pos hyx] at h
        exact absurd h (by simp)
      · have hx : x = y := charToNat_inj (by omega)
        subst hx
        rw [if_neg hxy, if_neg hyx] at h
        rw [if_neg hxy, if_neg hyx]
        refine charListLt_of_le_of_ne xs ys h fun he => hne ?_
        rw [he]

theorem strLt_of_strLe_of_ne {a b : String} (h : strLe a b) (hne : a ≠ b) : strLt a b :=
  charListLt_of_le_of_ne a.data b.data h fun he => hne (String.ext he)

/-! ## C8 — availability dispatch priorities -/

/-- **C8.** The availability processor groups routes by network code and
enumerates the sorted group keys, so the submitted priorities are exactly
`0..N-1` for `N` network groups, in ascending (strictly, since group keys
are distinct) lexicographic network order; and a worker run drains at most
one buffered fragment, always under its assigned priority. -/
theorem availability_dispatch_priorities (nodata : Nat) (routes : List Route)
    (jobs : List (Nat × String × List Route))
    (dump : List (StreamEpoch × String) → String) (priority : Nat)
    (results : List (Route × Option String))
    (h : dispatchAvailability nodata routes = .ok jobs) :
    jobs.map Prod.fst = List.range jobs.length
    ∧ jobs.length = (groupRoutesBy keyNetwork routes).length
    ∧ (jobs.map fun j => j.2.1).Pairwise strLt
    ∧ (availabilityWorkerRun dump priority results).length ≤ 1
    ∧ ∀ f ∈ availabilityWorkerRun dump priority results, f.1 = priority := by
  rw [dispatchAvailability] at h
  cases hred : dispatchReduce nodata (groupRoutesBy keyNetwork routes) with
  | error e => rw [hred] at h; simp at h
  | ok grouped =>
    rw [hred] at h
    have hjobs : jobs =
        ((List.insertionSort strLe (grouped.map Prod.fst)).enum).map
          fun p => (p.1, p.2, lookupGroup grouped p.2) := by
      injection h with h
      exact h.symm
    have hkeys : grouped.map Prod.fst = (groupRoutesBy keyNetwork routes).map Prod.fst :=
      dispatchReduce_ok_keys nodata _ grouped hred
    have hperm := List.perm_insertionSort strLe (grouped.map Prod.fst)
    refine ⟨?_, ?_, ?_, ?_, ?_⟩
    · rw [hjobs, List.map_map]
      have hfst : (Prod.fst ∘ fun p : Nat × String =>
          (p.1, p.2, lookupGroup grouped p.2)) = Prod.fst := rfl
      rw [hfst, List.enum_map_fst, List.length_map, List.enum_length]
    · rw [hjobs, List.length_map, List.enum_length, hperm.length_eq, hkeys,
        List.length_map]
    · have hsnd : jobs.map (fun j => j.2.1) =
          List.insertionSort strLe (grouped.map Prod.fst) := by
        rw [hjobs, List.map_map]
        have : ((fun j : Nat × String × List Route => j.2.1) ∘ fun p : Nat × String =>
            (p.1, p.2, lookupGroup grouped p.2)) = Prod.snd := rfl
        rw [this, List.enum_map_snd]
      rw [hsnd]
      haveI : IsTotal String strLe := ⟨fun a b => charListLe_total a.data b.data⟩
      haveI : IsTrans String strLe :=
        ⟨fun a b c h1 h2 => charListLe_trans a.data b.data c.data h1 h2⟩
      have hsorted : (List.insertionSort strLe (grouped.map Prod.fst)).Sorted strLe :=
        List.sorted_insertionSort strLe (grouped.map Prod.fst)
      have hnodup : (List.insertionSort strLe (grouped.map Prod.fst)).Nodup := by
        rw [hperm.nodup_iff, hkeys]
        exact (groupRoutesBy_spec keyNetwork routes).1
      exact (hsorted.and hnodup).imp fun hab => strLt_of_strLe_of_ne hab.1 hab.2
    · simp only [availabilityWorkerRun]
      split <;> simp
    · intro f hf
      simp only [availabilityWorkerRun] at hf
      split at hf
      · simp at hf
      · rw [List.mem_singleton.mp hf]

/-- **C8, witness.** Routes on networks `NB` and `NA` (in that order)
dispatch as priorities `0 ↦ NA`, `1 ↦ NB`; a concrete worker run with one
parsed result emits exactly one fragment under its priority. -/
theorem availability_dispatch_priorities_witness :
    ([(0, "NA", [wRouteA]), (1, "NB", [wRouteB])] :
        List (Nat × String × List Route)).map Prod.fst =
      List.range ([(0, "NA", [wRouteA]), (1, "NB", [wRouteB])] :
        List (Nat × String × List Route)).length
    ∧ ([(0, "NA", [wRouteA]), (1, "NB", [wRouteB])] :
        List (Nat × String × List Route)).length =
      (groupRoutesBy keyNetwork [wRouteB, wRouteA]).length
    ∧ (([(0, "NA", [wRouteA]), (1, "NB", [wRouteB])] :
        List (Nat × String × List Route)).map fun j => j.2.1).Pairwise strLt
    ∧ (availabilityWorkerRun wDump 0 [(wRouteA, some "d")]).length ≤ 1
    ∧ ∀ f ∈ availabilityWorkerRun wDump 0 [(wRouteA, some "d")], f.1 = 0 :=
  availability_dispatch_priorities 204 [wRouteB, wRouteA]
    [(0, "NA", [wRouteA]), (1, "NB", [wRouteB])] wDump 0 [(wRouteA, some "d")]
    (by decide)
